import Mathlib

/-!
The string generator of `xeger.go` (go-xeger).

A shallow embedding of `xeger.go` (package `xeger`): the walk over a parsed
`regexp/syntax` tree that produces a random string, with the capture store
`groups` and the values drawn from the random source passed explicitly.

Modelling conventions.

* A Go `string` is the list of its characters (`GoString`). Every string the
  program builds is made of whole runes, and the only byte-indexed strings
  (`printable`, `printableNotNL`) are ASCII, so bytes and characters coincide there.
* A `rune` of the tree is a `Char`, that is a Unicode scalar value: the fields `Rune` hold no
  surrogate codepoint (U+D800 to U+DFFF). The parser accepts an escape such as `\x{D800}`, and
  the conversion of line 53 then puts U+FFFD in the place of that rune (`stringOfRunes`); on
  scalar values the conversion changes nothing (`stringOfRunes_scalar`), which is why the
  literal case below starts from the characters themselves. Every statement about a tree is
  about trees whose runes are scalar values.
* Go `int` is the 64-bit signed integer: values are `Int`, and sums and differences
  that the program computes on tree fields are reduced by `wrap64`.
* The process-wide source `src` is a function `Nat → Nat`: the `k`-th call of
  `src.Int63()` returns `src k % 2^63`. The number of calls made so far is part of
  the state.
* A run-time panic is an `Except.error` carrying a `Fault`.
* Memory is unbounded: allocation never fails for a non-negative capacity.
-/

namespace GoXeger

/-! ## Strings and alphabets (xeger.go, lines 12-23) -/

/-- A Go string, as the list of its characters. -/
abbrev GoString := List Char

def ascii_lowercase : GoString := "abcdefghijklmnopqrstuvwxyz".toList
def ascii_uppercase : GoString := "ABCDEFGHIJKLMNOPQRSTUVWXYZ".toList
def ascii_letters : GoString := ascii_lowercase ++ ascii_uppercase
def digits : GoString := "0123456789".toList
def punctuation : GoString := " !\"#$%&\x27()*+,-./:;<=>?@[\\]^_\x60\x7b|\x7d~".toList
def control : GoString := ['\t', '\x0b', '\x0c', '\r']
def newline : GoString := ['\n']
def printable : GoString := digits ++ ascii_letters ++ punctuation ++ control ++ newline
def printableNotNL : GoString := digits ++ ascii_letters ++ punctuation ++ control
def printableNotControl : GoString := digits ++ ascii_letters ++ punctuation ++ newline

/-- The constant `limit` (line 27). -/
def limit : Int := 10

/-! ## The syntax tree (`regexp/syntax.Regexp`) -/

/-- The operators of `regexp/syntax`. -/
inductive Op where
  | OpNoMatch | OpEmptyMatch | OpLiteral | OpCharClass | OpAnyCharNotNL | OpAnyChar
  | OpBeginLine | OpEndLine | OpBeginText | OpEndText | OpWordBoundary | OpNoWordBoundary
  | OpCapture | OpStar | OpPlus | OpQuest | OpRepeat | OpConcat | OpAlternate
  deriving DecidableEq, Repr

/-- The flag bit `syntax.FoldCase`. -/
def FoldCase : Nat := 1

/-- A node of the syntax tree, with the fields of `syntax.Regexp` that the generator reads:
`Op`, `Flags`, `Sub`, `Rune`, `Min`, `Max`, `Cap`. -/
inductive Regexp where
  | mk (Op : Op) (Flags : Nat) (Sub : List Regexp) (Rune : List Char)
      (Min : Int) (Max : Int) (Cap : Int) : Regexp

namespace Regexp

def Op : Regexp → GoXeger.Op
  | mk op _ _ _ _ _ _ => op

def Flags : Regexp → Nat
  | mk _ fl _ _ _ _ _ => fl

def Sub : Regexp → List Regexp
  | mk _ _ sub _ _ _ _ => sub

def Rune : Regexp → List Char
  | mk _ _ _ rune _ _ _ => rune

def Min : Regexp → Int
  | mk _ _ _ _ mn _ _ => mn

def Max : Regexp → Int
  | mk _ _ _ _ _ mx _ => mx

def Cap : Regexp → Int
  | mk _ _ _ _ _ _ cap => cap

end Regexp

/-! ## Faults, the capture store, the state -/

/-- The run-time panics the generator can raise. -/
inductive Fault where
  /-- The explicit panic of line 67: `strconv.Atoi` rejected the group digits. -/
  | atoiPanic
  /-- The explicit panic of line 78: `strconv.ParseInt(_, 8, 32)` rejected the group digits. -/
  | octalPanic
  /-- Integer division by zero, in `randInt`. -/
  | divideByZero
  /-- Index out of range. -/
  | indexOutOfRange
  /-- A negative capacity given to `make`. -/
  | makeslice
  deriving DecidableEq, Repr

deriving instance DecidableEq for Except

/-- The map `groups : map[int]string`, as an association list in which the first binding of a
key is the current one. -/
abbrev Groups := List (Int × GoString)

namespace Groups

/-- The lookup `val, ok := groups[k]`. -/
def get (g : Groups) (k : Int) : Option GoString := List.lookup k g

/-- The assignment `groups[k] = v`. -/
def set (g : Groups) (k : Int) (v : GoString) : Groups := (k, v) :: g

/-- The number of keys, `len(groups)`. -/
def len (g : Groups) : Nat := ((g.map Prod.fst).dedup).length

end Groups

/-- The mutable state of a run: the capture store of the `Xeger` value and the number of values
already taken from the random source. -/
structure State where
  groups : Groups
  drawn : Nat
  deriving DecidableEq, Repr

/-- What a call returns: a panic, or the returned string with the state it leaves. -/
abbrev Result := Except Fault (GoString × State)

/-! ## Machine integers and the random source -/

/-- Reduction of an integer to the 64-bit signed range. -/
def wrap64 (i : Int) : Int := (i + 2 ^ 63) % 2 ^ 64 - 2 ^ 63

/-- The value of the `k`-th call of `src.Int63()`. -/
def Int63 (src : Nat → Nat) (k : Nat) : Int := ((src k % 2 ^ 63 : Nat) : Int)

/-- The function `randInt` (lines 182-184): `int(src.Int63() % int64(n))`. Go's `%` truncates
toward zero and panics on a zero divisor. -/
def randInt (src : Nat → Nat) (n : Int) (x : State) : Except Fault (Int × State) :=
  if n = 0 then .error .divideByZero
  else .ok (Int.tmod (Int63 src x.drawn) n, { x with drawn := x.drawn + 1 })

/-- Indexing `l[i]` with Go's bounds check. -/
def index (l : List Char) (i : Int) : Except Fault Char :=
  if i < 0 then .error .indexOutOfRange
  else match l[i.toNat]? with
    | some c => .ok c
    | none => .error .indexOutOfRange

/-! ## Library functions used by the literal case -/

/-- The expression `<g(\d+)>` tried at the head of `s`: the text of group 1 when it matches
there. `\d` is an ASCII digit, and `\d+` takes the whole run of digits, as `>` is not one. -/
def matchHere (s : GoString) : Option GoString :=
  match s with
  | a :: b :: rest =>
    if a = '<' ∧ b = 'g' then
      match rest.takeWhile Char.isDigit, rest.dropWhile Char.isDigit with
      | d :: ds, c :: _ => if c = '>' then some (d :: ds) else none
      | _, _ => none
    else none
  | _ => none

/-- The result `matches[1]` of `rgx.FindStringSubmatch(s)` for `rgx = <g(\d+)>`: group 1 of the
leftmost match, `none` when `rgx.MatchString(s)` is false. The expression is not anchored. -/
def FindStringSubmatch : GoString → Option GoString
  | [] => none
  | c :: cs =>
    match matchHere (c :: cs) with
    | some ds => some ds
    | none => FindStringSubmatch cs

/-- The value of a digit character. -/
def digitVal (c : Char) : Nat := c.toNat - 48

/-- The number a digit string denotes in the given base. -/
def numeral (base : Nat) (ds : GoString) : Nat :=
  ds.foldl (fun acc c => acc * base + digitVal c) 0

/-- The function `strconv.Atoi` on an unsigned digit string (the only texts group 1 can hold):
an error when the text is empty, has a character that is no decimal digit, or denotes a number
above the largest `int`. -/
def Atoi (ds : GoString) : Option Int :=
  if ds ≠ [] ∧ ds.all Char.isDigit ∧ numeral 10 ds < 2 ^ 63 then some (numeral 10 ds) else none

/-- The call `strconv.ParseInt(ds, 8, 32)` on an unsigned digit string: an error when the text is
empty, has a character that is no octal digit, or denotes a number above the largest `int32`. -/
def ParseIntOctal32 (ds : GoString) : Option Int :=
  if ds ≠ [] ∧ ds.all (fun c => decide ('0' ≤ c ∧ c ≤ '7')) ∧ numeral 8 ds < 2 ^ 31 then
    some (numeral 8 ds)
  else none

/-- The conversion `string(rune(n))`: the character with codepoint `n`, and U+FFFD when `n` is
no valid codepoint. -/
def runeString (n : Int) : GoString :=
  if 0 ≤ n ∧ n.toNat.isValidChar then [Char.ofNat n.toNat] else [Char.ofNat 0xFFFD]

/-- The value of a rune, as the parser stores it in `Regexp.Rune`. -/
def runeCode (c : Char) : Int := (c.toNat : Int)

/-- The conversion `string(re.Rune)` of line 53 on rune values: each rune gives its character,
and a value that is no Unicode scalar value (a surrogate, a negative or too large value) gives
U+FFFD. -/
def stringOfRunes (runes : List Int) : GoString :=
  runes.map (fun r =>
    if 0 ≤ r ∧ r.toNat.isValidChar then Char.ofNat r.toNat else Char.ofNat 0xFFFD)

/-! ## The generator -/

/-- The function `isInRanges` (lines 190-197). The right operand `ranges[i+1]` is read only when
`r >= ranges[i]` holds. -/
def isInRanges (r : Char) : List Char → Except Fault Bool
  | [] => .ok false
  | [lo] => if lo ≤ r then .error .indexOutOfRange else .ok false
  | lo :: hi :: rest => if lo ≤ r ∧ r ≤ hi then .ok true else isInRanges r rest

/-- The loops of lines 93-97 and 100-104 over the characters of `printableNotControl` still to
visit: `keep` is `!isInRanges(..)` in the first and `isInRanges(..)` in the second. -/
def filterLoop (keep : Bool → Bool) (ranges : List Char) :
    List Char → List Char → Except Fault (List Char)
  | [], filtered => .ok filtered
  | r :: rest, filtered =>
    match isInRanges r ranges with
    | .error e => .error e
    | .ok inside =>
      filterLoop keep ranges rest (if keep inside then filtered ++ [r] else filtered)

/-- The case `syntax.OpLiteral` (lines 51-87), for a literal whose runes are the scalar values
`rune`: the string `s` of line 53 is then made of these very characters
(`stringOfRunes_scalar`). -/
def generateLiteral (rune : List Char) (x : State) : Result :=
  let s : GoString := rune
  match FindStringSubmatch s with
  | some digitsText =>
    match Atoi digitsText with
    | none => .error .atoiPanic
    | some idx =>
      match x.groups.get idx with
      | some val => .ok (val, x)
      | none =>
        if idx > (x.groups.len : Int) then
          match ParseIntOctal32 digitsText with
          | none => .error .octalPanic
          | some octal => .ok (runeString octal, x)
        else .ok ([], x)
  | none => .ok (s, x)

/-- The case `syntax.OpCharClass` (lines 89-111). -/
def generateCharClass (src : Nat → Nat) (flags : Nat) (rune : List Char) (x : State) : Result :=
  let collected :=
    if flags &&& FoldCase ≠ 0 then
      filterLoop (fun inside => !inside) rune printableNotControl []
    else
      filterLoop (fun inside => inside) rune printableNotControl []
  match collected with
  | .error e => .error e
  | .ok filtered =>
    if filtered.length > 0 then
      match randInt src filtered.length x with
      | .error e => .error e
      | .ok (i, x1) =>
        match index filtered i with
        | .error e => .error e
        | .ok candidate => .ok ([candidate], x1)
    else .ok ([], x)

/-- The cases `syntax.OpAnyCharNotNL` and `syntax.OpAnyChar` (lines 113-119), for the alphabet
`printableNotNL` or `printable`. -/
def generateAnyChar (src : Nat → Nat) (alphabet : GoString) (x : State) : Result :=
  match randInt src alphabet.length x with
  | .error e => .error e
  | .ok (i, x1) =>
    match index alphabet i with
    | .error e => .error e
    | .ok c => .ok ([c], x1)

/-- The outer loop of `generateFromSubexpression` (lines 170-174): `n` more passes of `body`,
which appends one pass over the children to the buffer `b`. -/
def repeatLoop (body : GoString → State → Result) : Nat → GoString → State → Result
  | 0, b, x => .ok (b, x)
  | n + 1, b, x =>
    match body b x with
    | .error e => .error e
    | .ok (b1, x1) => repeatLoop body n b1 x1

/-- The body of `generateFromSubexpression` (lines 168-176) for `len(re.Sub) = len` and a pass
over the children `body`: `make([]byte, 0, len*count)` panics on a negative capacity, the loop
`for i := 0; i < count; i++` runs `count` times (never, when `count <= 0`). The product
`len*count` is not reduced to 64 bits: a list of children long enough to make it overflow does
not fit in memory. -/
def subexpressionLoop (body : GoString → State → Result) (len : Nat) (count : Int)
    (x : State) : Result :=
  if (len : Int) * count < 0 then .error .makeslice
  else repeatLoop body count.toNat [] x

mutual

/-- The method `generateFromRegexp` (lines 49-164). -/
def generateFromRegexp (src : Nat → Nat) : Regexp → State → Result
  | .mk op flags sub rune mn mx cap, x =>
    match op with
    | .OpLiteral => generateLiteral rune x
    | .OpCharClass => generateCharClass src flags rune x
    | .OpAnyCharNotNL => generateAnyChar src printableNotNL x
    | .OpAnyChar => generateAnyChar src printable x
    | .OpCapture =>
      match subexpressionLoop (appendSubs src sub) sub.length 1 x with
      | .error e => .error e
      | .ok (generated, x1) => .ok (generated, { x1 with groups := x1.groups.set cap generated })
    | .OpStar =>
      match randInt src (limit + 1) x with
      | .error e => .error e
      | .ok (count, x1) => subexpressionLoop (appendSubs src sub) sub.length count x1
    | .OpPlus =>
      match randInt src limit x with
      | .error e => .error e
      | .ok (r, x1) => subexpressionLoop (appendSubs src sub) sub.length (r + 1) x1
    | .OpQuest =>
      match randInt src 2 x with
      | .error e => .error e
      | .ok (count, x1) => subexpressionLoop (appendSubs src sub) sub.length count x1
    | .OpRepeat =>
      let max := if mx = -1 then limit else mx
      match randInt src (wrap64 (max - mn + 1)) x with
      | .error e => .error e
      | .ok (r, x1) =>
        subexpressionLoop (appendSubs src sub) sub.length (wrap64 (r + mn)) x1
    | .OpConcat => subexpressionLoop (appendSubs src sub) sub.length 1 x
    | .OpAlternate =>
      match randInt src sub.length x with
      | .error e => .error e
      | .ok (i, x1) => if i < 0 then .error .indexOutOfRange else generateAt src sub i.toNat x1
    | _ => .ok ([], x)

/-- The inner loop of `generateFromSubexpression` (lines 171-173): each child in order, its
output appended to the buffer `b`. -/
def appendSubs (src : Nat → Nat) : List Regexp → GoString → State → Result
  | [], b, x => .ok (b, x)
  | sub :: rest, b, x =>
    match generateFromRegexp src sub x with
    | .error e => .error e
    | .ok (s, x1) => appendSubs src rest (b ++ s) x1

/-- The call `x.generateFromRegexp(re.Sub[i])` of line 148. -/
def generateAt (src : Nat → Nat) : List Regexp → Nat → State → Result
  | [], _, _ => .error .indexOutOfRange
  | sub :: _, 0, x => generateFromRegexp src sub x
  | _ :: rest, i + 1, x => generateAt src rest i x

end

/-- The method `generateFromSubexpression` (lines 166-176). -/
def generateFromSubexpression (src : Nat → Nat) (re : Regexp) (count : Int) (x : State) : Result :=
  subexpressionLoop (appendSubs src re.Sub) re.Sub.length count x

/-- A generator value: the type `Xeger` (lines 29-32). -/
structure Xeger where
  re : Regexp
  groups : Groups

/-- The generator `NewXeger` returns for a pattern that parses to `re` (line 40). -/
def NewXeger (re : Regexp) : Xeger := { re := re, groups := [] }

/-- The method `Generate` (lines 44-46), after `drawn` values were taken from the source: the
string, the generator with the store the call leaves, and the new number of values taken. -/
def Generate (src : Nat → Nat) (x : Xeger) (drawn : Nat) : Except Fault (GoString × Xeger × Nat) :=
  match generateFromRegexp src x.re { groups := x.groups, drawn := drawn } with
  | .error e => .error e
  | .ok (s, st) => .ok (s, { x with groups := st.groups }, st.drawn)

/-! ## Building trees -/

def Literal (s : String) : Regexp := .mk .OpLiteral 0 [] s.toList 0 0 0
def CharClass (ranges : List Char) : Regexp := .mk .OpCharClass 0 [] ranges 0 0 0
def AnyCharNotNL : Regexp := .mk .OpAnyCharNotNL 0 [] [] 0 0 0
def AnyChar : Regexp := .mk .OpAnyChar 0 [] [] 0 0 0
def Capture (cap : Int) (sub : List Regexp) : Regexp := .mk .OpCapture 0 sub [] 0 0 cap
def Star (sub : List Regexp) : Regexp := .mk .OpStar 0 sub [] 0 0 0
def Plus (sub : List Regexp) : Regexp := .mk .OpPlus 0 sub [] 0 0 0
def Quest (sub : List Regexp) : Regexp := .mk .OpQuest 0 sub [] 0 0 0
def Repeat (mn mx : Int) (sub : List Regexp) : Regexp := .mk .OpRepeat 0 sub [] mn mx 0
def Concat (sub : List Regexp) : Regexp := .mk .OpConcat 0 sub [] 0 0 0
def Alternate (sub : List Regexp) : Regexp := .mk .OpAlternate 0 sub [] 0 0 0

/-- The state of a fresh generator before any value was drawn. -/
def fresh : State := { groups := [], drawn := 0 }

/-! ## What a tree matches

The language of a tree, after the comments of `regexp/syntax` on each operator: `OpCapture`,
`OpStar`, `OpPlus`, `OpQuest` and `OpRepeat` are about `Sub[0]`. The relation `fold` says when
two characters are equal up to case (the orbit of `unicode.SimpleFold`); it is used by literals
that carry the flag `FoldCase`. The operators whose match depends on the position in the text
(`OpBeginLine` to `OpNoWordBoundary`) have no rule here: the statements below are about trees
without them. -/

/-- Membership of `c` in the class that the range pairs `lo0, hi0, lo1, hi1, ...` denote. -/
def classHas : List Char → Char → Bool
  | lo :: hi :: rest, c => (decide (lo ≤ c) && decide (c ≤ hi)) || classHas rest c
  | _, _ => false

/-- The characters of `printableNotControl` that a class node with the given flags and
ranges accepts: those outside the ranges when the flag `FoldCase` is set, those inside else. -/
def candidates (flags : Nat) (rune : List Char) : List Char :=
  if flags &&& FoldCase ≠ 0 then printableNotControl.filter (fun c => !classHas rune c)
  else printableNotControl.filter (fun c => classHas rune c)

mutual

/-- The relation `Matches fold re s`: the whole of `s` is a match of `re`. -/
inductive Matches (fold : Char → Char → Prop) : Regexp → GoString → Prop
  | literal {fl sub rune mn mx cap s} :
      s = rune → Matches fold (.mk .OpLiteral fl sub rune mn mx cap) s
  | literalFold {fl sub rune mn mx cap s} :
      fl &&& FoldCase ≠ 0 → List.Forall₂ fold s rune →
      Matches fold (.mk .OpLiteral fl sub rune mn mx cap) s
  | charClass {fl sub rune mn mx cap c} :
      classHas rune c = true → Matches fold (.mk .OpCharClass fl sub rune mn mx cap) [c]
  | anyCharNotNL {fl sub rune mn mx cap c} :
      c ≠ '\n' → Matches fold (.mk .OpAnyCharNotNL fl sub rune mn mx cap) [c]
  | anyChar {fl sub rune mn mx cap c} :
      Matches fold (.mk .OpAnyChar fl sub rune mn mx cap) [c]
  | emptyMatch {fl sub rune mn mx cap} :
      Matches fold (.mk .OpEmptyMatch fl sub rune mn mx cap) []
  | capture {fl r rest rune mn mx cap s} :
      Matches fold r s → Matches fold (.mk .OpCapture fl (r :: rest) rune mn mx cap) s
  | star {fl r rest rune mn mx cap s} (k : Nat) :
      MatchesTimes fold r k s → Matches fold (.mk .OpStar fl (r :: rest) rune mn mx cap) s
  | plus {fl r rest rune mn mx cap s} (k : Nat) :
      1 ≤ k → MatchesTimes fold r k s →
      Matches fold (.mk .OpPlus fl (r :: rest) rune mn mx cap) s
  | quest {fl r rest rune mn mx cap s} (k : Nat) :
      k ≤ 1 → MatchesTimes fold r k s →
      Matches fold (.mk .OpQuest fl (r :: rest) rune mn mx cap) s
  | times {fl r rest rune mn mx cap s} (k : Nat) :
      mn ≤ (k : Int) → (mx = -1 ∨ (k : Int) ≤ mx) → MatchesTimes fold r k s →
      Matches fold (.mk .OpRepeat fl (r :: rest) rune mn mx cap) s
  | concat {fl sub rune mn mx cap s} :
      MatchesSeq fold sub s → Matches fold (.mk .OpConcat fl sub rune mn mx cap) s
  | alternate {fl sub rune mn mx cap r s} :
      r ∈ sub → Matches fold r s → Matches fold (.mk .OpAlternate fl sub rune mn mx cap) s

/-- The text `s` is a match of the trees of the list one after the other. -/
inductive MatchesSeq (fold : Char → Char → Prop) : List Regexp → GoString → Prop
  | nil : MatchesSeq fold [] []
  | cons {r rs s t} : Matches fold r s → MatchesSeq fold rs t → MatchesSeq fold (r :: rs) (s ++ t)

/-- The text `s` is `k` matches of `re` one after the other. -/
inductive MatchesTimes (fold : Char → Char → Prop) : Regexp → Nat → GoString → Prop
  | zero {r} : MatchesTimes fold r 0 []
  | succ {r k s t} : Matches fold r s → MatchesTimes fold r k t → MatchesTimes fold r (k + 1) (s ++ t)

end

/-! ## Trees on which the generator is well behaved -/

mutual

/-- The trees on which no panic can occur, whatever the store and the random values: a literal
with a `<gN>` fragment has digits that both `strconv.Atoi` and `strconv.ParseInt(_, 8, 32)`
accept, the ranges of a class come in pairs, an alternation has a child, and the bounds of a
repetition satisfy `0 <= Min`, with `Min <= limit` when `Max` is `-1` and `Min <= Max` else. -/
def safe : Regexp → Bool
  | .mk op _ sub rune mn mx _ =>
    match op with
    | .OpLiteral =>
      match FindStringSubmatch rune with
      | none => true
      | some ds => (Atoi ds).isSome && (ParseIntOctal32 ds).isSome
    | .OpCharClass => rune.length % 2 = 0
    | .OpCapture => safeAll sub
    | .OpStar => safeAll sub
    | .OpPlus => safeAll sub
    | .OpQuest => safeAll sub
    | .OpConcat => safeAll sub
    | .OpRepeat =>
      safeAll sub && decide (0 ≤ mn) &&
        ((decide (mx = -1) && decide (mn ≤ limit)) || (decide (mn ≤ mx) && decide (mx < 2 ^ 63)))
    | .OpAlternate => !sub.isEmpty && safeAll sub
    | _ => true

/-- Every tree of the list is `safe`. -/
def safeAll : List Regexp → Bool
  | [] => true
  | r :: rs => safe r && safeAll rs

end

mutual

/-- The trees built only from the supported operators, in the shape the parser gives them (one
child under `OpCapture`, `OpStar`, `OpPlus`, `OpQuest` and `OpRepeat`, at least one under
`OpAlternate`, class ranges in pairs, `0 <= Min` and `Min <= Max` unless `Max` is `-1`), and in
which moreover no literal holds a `<gN>` fragment, every class is without the flag `FoldCase`
and has a character of `printableNotControl`, and `Min <= limit` when `Max` is `-1`. -/
def plain : Regexp → Bool
  | .mk op flags sub rune mn mx _ =>
    match op with
    | .OpLiteral => (FindStringSubmatch rune).isNone
    | .OpCharClass =>
      decide (flags &&& FoldCase = 0) && decide (rune.length % 2 = 0) &&
        printableNotControl.any (classHas rune)
    | .OpAnyCharNotNL => true
    | .OpAnyChar => true
    | .OpCapture => decide (sub.length = 1) && plainAll sub
    | .OpStar => decide (sub.length = 1) && plainAll sub
    | .OpPlus => decide (sub.length = 1) && plainAll sub
    | .OpQuest => decide (sub.length = 1) && plainAll sub
    | .OpRepeat =>
      decide (sub.length = 1) && plainAll sub && decide (0 ≤ mn) &&
        ((decide (mx = -1) && decide (mn ≤ limit)) || (decide (mn ≤ mx) && decide (mx < 2 ^ 63)))
    | .OpConcat => plainAll sub
    | .OpAlternate => !sub.isEmpty && plainAll sub
    | _ => false

/-- Every tree of the list is `plain`. -/
def plainAll : List Regexp → Bool
  | [] => true
  | r :: rs => plain r && plainAll rs

end

/-! ## Regenerating children as a unit

The phrase of the specification, "regenerate children as a unit N times": for N iterations,
for each child in order, generate it and append its output, the result being the concatenation
of the pieces in that nested order. These two definitions follow those words; that
`generateFromSubexpression` computes the same is proved below. -/

/-- One iteration: each child in order is generated, and the outputs are concatenated. -/
def onePass (src : Nat → Nat) : List Regexp → State → Result
  | [], x => .ok ([], x)
  | child :: rest, x =>
    match generateFromRegexp src child x with
    | .error e => .error e
    | .ok (piece, x1) =>
      match onePass src rest x1 with
      | .error e => .error e
      | .ok (pieces, x2) => .ok (piece ++ pieces, x2)

/-- The children regenerated as a unit `n` times: `n` iterations of `onePass`, concatenated. -/
def regenerate (src : Nat → Nat) (children : List Regexp) : Nat → State → Result
  | 0, x => .ok ([], x)
  | n + 1, x =>
    match onePass src children x with
    | .error e => .error e
    | .ok (first, x1) =>
      match regenerate src children n x1 with
      | .error e => .error e
      | .ok (others, x2) => .ok (first ++ others, x2)

/-! ## Auxiliary facts: integers, the random source, indexing -/

theorem wrap64_of_range {i : Int} (h1 : -2 ^ 63 ≤ i) (h2 : i < 2 ^ 63) : wrap64 i = i := by
  unfold wrap64
  omega

theorem Int63_nonneg (src : Nat → Nat) (k : Nat) : 0 ≤ Int63 src k := by
  unfold Int63
  omega

theorem Int63_lt (src : Nat → Nat) (k : Nat) : Int63 src k < 2 ^ 63 := by
  unfold Int63
  omega

/-- For a positive bound `n`, `randInt` returns a value of `[0, n)` and takes one value from
the source. -/
theorem randInt_pos (src : Nat → Nat) (x : State) {n : Int} (h : 0 < n) :
    ∃ r : Int, 0 ≤ r ∧ r < n ∧
      randInt src n x = .ok (r, { x with drawn := x.drawn + 1 }) := by
  refine ⟨Int.tmod (Int63 src x.drawn) n, ?_, ?_, ?_⟩
  · rw [Int.tmod_eq_emod (Int63_nonneg _ _) (le_of_lt h)]
    exact Int.emod_nonneg _ (ne_of_gt h)
  · rw [Int.tmod_eq_emod (Int63_nonneg _ _) (le_of_lt h)]
    exact Int.emod_lt_of_pos _ h
  · unfold randInt
    rw [if_neg (ne_of_gt h)]

/-- A constant source makes `randInt` return that constant, when it is below the bound. -/
theorem randInt_const (v : Nat) (x : State) {n : Int} (h : (v : Int) < n) (hv : v < 2 ^ 63) :
    randInt (fun _ => v) n x = .ok ((v : Int), { x with drawn := x.drawn + 1 }) := by
  have hn : 0 < n := lt_of_le_of_lt (Int.ofNat_nonneg v) h
  unfold randInt
  rw [if_neg (ne_of_gt hn)]
  have h63 : Int63 (fun _ => v) x.drawn = (v : Int) := by
    unfold Int63
    rw [Nat.mod_eq_of_lt hv]
  rw [h63, Int.tmod_eq_emod (Int.ofNat_nonneg v) (le_of_lt hn),
    Int.emod_eq_of_lt (Int.ofNat_nonneg v) h]

/-- An index inside the bounds reads an element of the list. -/
theorem index_of_lt (l : List Char) {i : Int} (h0 : 0 ≤ i) (h1 : i < l.length) :
    ∃ c, c ∈ l ∧ index l i = .ok c := by
  have hlt : i.toNat < l.length := by omega
  refine ⟨l[i.toNat], List.getElem_mem _, ?_⟩
  unfold index
  rw [if_neg (not_lt.mpr h0), List.getElem?_eq_getElem hlt]

/-- The cases `OpAnyCharNotNL` and `OpAnyChar` return one character of the alphabet. -/
theorem generateAnyChar_mem (src : Nat → Nat) (alphabet : GoString) (x : State)
    (h : 0 < alphabet.length) :
    ∃ c, c ∈ alphabet ∧
      generateAnyChar src alphabet x = .ok ([c], { x with drawn := x.drawn + 1 }) := by
  obtain ⟨r, hr0, hr1, hr⟩ := randInt_pos src x (n := (alphabet.length : Int)) (by omega)
  obtain ⟨c, hc, hi⟩ := index_of_lt alphabet hr0 hr1
  refine ⟨c, hc, ?_⟩
  unfold generateAnyChar
  rw [hr]
  simp only [hi]

/-! ## Auxiliary facts: the conversion of line 53 -/

/-- On runes that are Unicode scalar values the conversion `string(re.Rune)` gives back the
characters. -/
theorem stringOfRunes_scalar (l : List Char) : stringOfRunes (l.map runeCode) = l := by
  induction l with
  | nil => rfl
  | cons c l ih =>
    have hv : c.toNat.isValidChar := c.valid
    have hc : (if 0 ≤ runeCode c ∧ (runeCode c).toNat.isValidChar
        then Char.ofNat (runeCode c).toNat else Char.ofNat 0xFFFD) = c := by
      unfold runeCode
      rw [if_pos ⟨Int.ofNat_nonneg _, by simpa using hv⟩, Int.toNat_ofNat, Char.ofNat_toNat]
    unfold stringOfRunes at ih ⊢
    rw [List.map_cons, List.map_cons, hc, ih]

/-- A surrogate rune, which the parser accepts as `\x{D800}`, is converted to U+FFFD. -/
theorem stringOfRunes_surrogate : stringOfRunes [0xD800] = [Char.ofNat 0xFFFD] := by
  decide

/-! ## Auxiliary facts: passes over fixed children -/

/-- The characters of `printableNotControl` inside the range `0-9` are the digits. -/
theorem filterLoop_digits :
    filterLoop (fun inside => inside) ['0', '9'] printableNotControl [] = .ok digits := by
  decide

/-- The class `[0-9]` returns one decimal digit and takes one value from the source. -/
theorem generateCharClass_digit (src : Nat → Nat) (x : State) :
    ∃ c, c.isDigit = true ∧
      generateCharClass src 0 ['0', '9'] x = .ok ([c], { x with drawn := x.drawn + 1 }) := by
  obtain ⟨r, hr0, hr1, hr⟩ := randInt_pos src x (n := ((digits.length : Nat) : Int)) (by decide)
  obtain ⟨c, hc, hi⟩ := index_of_lt digits hr0 hr1
  refine ⟨c, ?_, ?_⟩
  · have hall : ∀ d ∈ digits, d.isDigit = true := by decide
    exact hall c hc
  · unfold generateCharClass
    have hfl : ¬ (0 &&& FoldCase ≠ 0) := by decide
    simp only [if_neg hfl, filterLoop_digits]
    rw [if_pos (by decide), hr]
    simp only [hi]

/-- One pass over the single child `[0-9]` appends one decimal digit. -/
theorem appendSubs_digit (src : Nat → Nat) (b : GoString) (x : State) :
    ∃ c, c.isDigit = true ∧
      appendSubs src [CharClass ['0', '9']] b x
        = .ok (b ++ [c], { x with drawn := x.drawn + 1 }) := by
  obtain ⟨c, hc, h⟩ := generateCharClass_digit src x
  refine ⟨c, hc, ?_⟩
  have hg : generateFromRegexp src (CharClass ['0', '9']) x
      = generateCharClass src 0 ['0', '9'] x := by
    simp only [CharClass, generateFromRegexp]
  simp only [appendSubs, hg, h]

/-! ## Auxiliary facts: the pattern `(a|b)c` -/

/-- A literal without a `<gN>` fragment is returned as it is. -/
theorem generateLiteral_verbatim (rune : List Char) (x : State)
    (h : FindStringSubmatch rune = none) : generateLiteral rune x = .ok (rune, x) := by
  unfold generateLiteral
  simp only [h]

/-- The alternation of `a` and `b` returns `a` for the random value 0 and `b` for 1. -/
theorem alternate_ab_of_randInt (src : Nat → Nat) (x x1 : State) (r : Int)
    (hr : randInt src 2 x = .ok (r, x1)) :
    (r = 0 → generateFromRegexp src (Alternate [Literal "a", Literal "b"]) x = .ok (['a'], x1)) ∧
    (r = 1 → generateFromRegexp src (Alternate [Literal "a", Literal "b"]) x = .ok (['b'], x1)) := by
  have hlen : (([Literal "a", Literal "b"] : List Regexp).length : Int) = 2 := rfl
  constructor
  · intro h0
    subst h0
    simp only [Alternate, generateFromRegexp, hlen, hr]
    rfl
  · intro h1
    subst h1
    simp only [Alternate, generateFromRegexp, hlen, hr]
    rfl

/-- The characters of `printableNotControl` inside the range `a-b`. -/
theorem filterLoop_ab :
    filterLoop (fun inside => inside) ['a', 'b'] printableNotControl [] = .ok ['a', 'b'] := by
  decide

/-- The class `[a-b]` returns `a` for the random value 0 and `b` for 1. -/
theorem charClass_ab_of_randInt (src : Nat → Nat) (x x1 : State) (r : Int)
    (hr : randInt src 2 x = .ok (r, x1)) :
    (r = 0 → generateFromRegexp src (CharClass ['a', 'b']) x = .ok (['a'], x1)) ∧
    (r = 1 → generateFromRegexp src (CharClass ['a', 'b']) x = .ok (['b'], x1)) := by
  have hfl : ¬ (0 &&& FoldCase ≠ 0) := by decide
  have hlen : ((['a', 'b'] : List Char).length : Int) = 2 := rfl
  constructor
  · intro h0
    subst h0
    simp only [CharClass, generateFromRegexp, generateCharClass, if_neg hfl, filterLoop_ab]
    rw [if_pos (by decide), hlen, hr]
    rfl
  · intro h1
    subst h1
    simp only [CharClass, generateFromRegexp, generateCharClass, if_neg hfl, filterLoop_ab]
    rw [if_pos (by decide), hlen, hr]
    rfl

/-- Group 1 around a tree that returns `o`, followed by the literal `c`, returns `o` and then
`c`, and records `o` as group 1. -/
theorem concat_capture_c (src : Nat → Nat) (inner : Regexp) (x x1 : State) (o : GoString)
    (h : generateFromRegexp src inner x = .ok (o, x1)) :
    generateFromRegexp src (Concat [Capture 1 [inner], Literal "c"]) x
      = .ok (o ++ ['c'], { x1 with groups := x1.groups.set 1 o }) := by
  have hc : ∀ y : State, generateFromRegexp src (Literal "c") y = .ok (['c'], y) := fun _ => rfl
  have hcap : generateFromRegexp src (Capture 1 [inner]) x
      = .ok (o, { x1 with groups := x1.groups.set 1 o }) := by
    simp only [Capture, generateFromRegexp, subexpressionLoop, List.length_singleton]
    rw [if_neg (by decide)]
    have h1 : (1 : Int).toNat = 1 := rfl
    simp only [h1, repeatLoop, appendSubs, h, List.nil_append]
  simp only [Concat, generateFromRegexp, subexpressionLoop, List.length_cons,
    List.length_singleton]
  rw [if_neg (by decide)]
  have h1 : (1 : Int).toNat = 1 := rfl
  simp only [h1, repeatLoop, appendSubs, hcap, hc, List.nil_append]

/-- The text `<g` + digits + `>` is recognised, with the digits as group 1. -/
theorem FindStringSubmatch_directive (ds : GoString) (hne : ds ≠ [])
    (hd : ∀ c ∈ ds, c.isDigit = true) :
    FindStringSubmatch ('<' :: 'g' :: (ds ++ ['>'])) = some ds := by
  have htake : ∀ l : GoString, (∀ c ∈ l, c.isDigit = true) →
      (l ++ ['>']).takeWhile Char.isDigit = l ∧ (l ++ ['>']).dropWhile Char.isDigit = ['>'] := by
    intro l
    induction l with
    | nil => intro _; exact ⟨by decide, by decide⟩
    | cons a l ih =>
      intro hl
      have ha : a.isDigit = true := hl a (List.mem_cons_self _ _)
      obtain ⟨h1, h2⟩ := ih (fun c hc => hl c (List.mem_cons_of_mem _ hc))
      constructor
      · simp only [List.cons_append, List.takeWhile_cons, ha, if_true, h1]
      · simp only [List.cons_append, List.dropWhile_cons, ha, if_true, h2]
  obtain ⟨h1, h2⟩ := htake ds hd
  obtain ⟨d, ds1, rfl⟩ := List.exists_cons_of_ne_nil hne
  simp only [FindStringSubmatch, matchHere, h1, h2, and_self, if_true]

/-! ## Auxiliary facts: classes, loops, repetition bounds -/

/-- On ranges in pairs `isInRanges` does not panic and decides membership in the class. -/
theorem isInRanges_eq (r : Char) :
    ∀ ranges : List Char, ranges.length % 2 = 0 → isInRanges r ranges = .ok (classHas ranges r)
  | [], _ => rfl
  | [_], h => by simp at h
  | lo :: hi :: rest, h => by
    have hrest : rest.length % 2 = 0 := by
      simp only [List.length_cons] at h
      omega
    have ih := isInRanges_eq r rest hrest
    by_cases hc : lo ≤ r ∧ r ≤ hi
    · rw [isInRanges, if_pos hc]
      simp only [classHas, hc.1, hc.2, decide_True, Bool.and_self, Bool.true_or]
    · have hf : (decide (lo ≤ r) && decide (r ≤ hi)) = false := by
        rw [Bool.and_eq_false_iff]
        by_cases h1 : lo ≤ r
        · right
          exact decide_eq_false (fun h2 => hc ⟨h1, h2⟩)
        · left
          exact decide_eq_false h1
      simp only [isInRanges, classHas, if_neg hc, ih, hf, Bool.false_or]

/-- On ranges in pairs the filtering loop keeps, in order, the characters whose membership
`keep` accepts. -/
theorem filterLoop_eq (keep : Bool → Bool) (ranges : List Char) (h : ranges.length % 2 = 0) :
    ∀ (l filtered : List Char), filterLoop keep ranges l filtered
      = .ok (filtered ++ l.filter (fun c => keep (classHas ranges c))) := by
  intro l
  induction l with
  | nil => intro filtered; simp [filterLoop]
  | cons a l ih =>
    intro filtered
    rw [filterLoop, isInRanges_eq a ranges h]
    simp only [ih]
    by_cases hk : keep (classHas ranges a) = true
    · simp [hk, List.filter_cons]
    · simp [hk, List.filter_cons]

/-- A class node with ranges in pairs returns the empty string when it has no candidate, and
else one of its candidates, taking one value from the source. -/
theorem generateCharClass_cases (src : Nat → Nat) (flags : Nat) (rune : List Char) (x : State)
    (h : rune.length % 2 = 0) :
    (candidates flags rune = [] ∧ generateCharClass src flags rune x = .ok ([], x)) ∨
    (∃ c, c ∈ candidates flags rune ∧
      generateCharClass src flags rune x = .ok ([c], { x with drawn := x.drawn + 1 })) := by
  have hcol : (if flags &&& FoldCase ≠ 0 then
        filterLoop (fun inside => !inside) rune printableNotControl []
      else filterLoop (fun inside => inside) rune printableNotControl [])
      = .ok (candidates flags rune) := by
    unfold candidates
    by_cases hf : flags &&& FoldCase ≠ 0
    · rw [if_pos hf, if_pos hf, filterLoop_eq _ _ h, List.nil_append]
    · rw [if_neg hf, if_neg hf, filterLoop_eq _ _ h, List.nil_append]
  unfold generateCharClass
  simp only [hcol]
  by_cases hlen : (candidates flags rune).length > 0
  · right
    obtain ⟨r, hr0, hr1, hr⟩ :=
      randInt_pos src x (n := ((candidates flags rune).length : Int)) (by omega)
    obtain ⟨c, hc, hi⟩ := index_of_lt (candidates flags rune) hr0 hr1
    refine ⟨c, hc, ?_⟩
    rw [if_pos hlen, hr]
    simp only [hi]
  · left
    refine ⟨List.length_eq_zero.mp (by omega), ?_⟩
    rw [if_neg hlen]

/-- When every pass returns, so does the loop of `n` passes. -/
theorem repeatLoop_ok (body : GoString → State → Result)
    (hbody : ∀ b x, ∃ b1 x1, body b x = .ok (b1, x1)) :
    ∀ (n : Nat) (b : GoString) (x : State), ∃ b1 x1, repeatLoop body n b x = .ok (b1, x1) := by
  intro n
  induction n with
  | zero => intro b x; exact ⟨b, x, rfl⟩
  | succ n ih =>
    intro b x
    obtain ⟨b1, x1, h1⟩ := hbody b x
    obtain ⟨b2, x2, h2⟩ := ih b1 x1
    exact ⟨b2, x2, by simp only [repeatLoop, h1, h2]⟩

/-- When every pass returns, `generateFromSubexpression` returns for a count that is not
negative. -/
theorem subexpressionLoop_ok (body : GoString → State → Result)
    (hbody : ∀ b x, ∃ b1 x1, body b x = .ok (b1, x1)) (len : Nat) {k : Int}
    (hcount : 0 ≤ k) (x : State) :
    ∃ out x1, subexpressionLoop body len k x = .ok (out, x1) := by
  unfold subexpressionLoop
  have hcap : ¬ ((len : Int) * k < 0) := not_lt.mpr (Int.mul_nonneg (Int.ofNat_nonneg _) hcount)
  rw [if_neg hcap]
  exact repeatLoop_ok body hbody _ _ _

/-- The count of an `OpRepeat` node whose bounds satisfy `0 <= Min` and either `Max = -1` and
`Min <= limit`, or `Min <= Max`: no division by zero, and the count lies between `Min` and the
upper bound. -/
theorem repeat_count_range (src : Nat → Nat) (x : State) {mn mx : Int} (h0 : 0 ≤ mn)
    (h : (mx = -1 ∧ mn ≤ limit) ∨ (mn ≤ mx ∧ mx < 2 ^ 63)) :
    ∃ r : Int, randInt src (wrap64 ((if mx = -1 then limit else mx) - mn + 1)) x
        = .ok (r, { x with drawn := x.drawn + 1 }) ∧
      mn ≤ wrap64 (r + mn) ∧ wrap64 (r + mn) ≤ (if mx = -1 then limit else mx) := by
  have hlim : limit = 10 := rfl
  have hmax : mn ≤ (if mx = -1 then limit else mx) ∧ (if mx = -1 then limit else mx) < 2 ^ 63 := by
    rcases h with ⟨h1, h2⟩ | ⟨h1, h2⟩
    · rw [if_pos h1]; omega
    · rw [if_neg (by omega)]; exact ⟨h1, h2⟩
  generalize (if mx = -1 then limit else mx) = m at hmax ⊢
  obtain ⟨hm1, hm2⟩ := hmax
  by_cases hbig : m - mn + 1 = 2 ^ 63
  · have hw : wrap64 (m - mn + 1) = -2 ^ 63 := by rw [hbig]; decide
    have hv0 := Int63_nonneg src x.drawn
    have hv1 := Int63_lt src x.drawn
    refine ⟨Int63 src x.drawn, ?_, ?_, ?_⟩
    · unfold randInt
      rw [hw, if_neg (by decide), Int.tmod_neg, Int.tmod_eq_of_lt hv0 hv1]
    · rw [wrap64_of_range (by omega) (by omega)]; omega
    · rw [wrap64_of_range (by omega) (by omega)]; omega
  · have hw : wrap64 (m - mn + 1) = m - mn + 1 := wrap64_of_range (by omega) (by omega)
    obtain ⟨r, hr0, hr1, hr⟩ := randInt_pos src x (n := m - mn + 1) (by omega)
    refine ⟨r, by rw [hw, hr], ?_, ?_⟩
    · rw [wrap64_of_range (by omega) (by omega)]; omega
    · rw [wrap64_of_range (by omega) (by omega)]; omega

/-- A literal whose `<gN>` fragment, if any, has digits that `strconv.Atoi` and
`strconv.ParseInt(_, 8, 32)` accept is generated without panic. -/
theorem generateLiteral_ok (rune : List Char) (x : State)
    (h : (match FindStringSubmatch rune with
      | none => true
      | some ds => (Atoi ds).isSome && (ParseIntOctal32 ds).isSome) = true) :
    ∃ out x1, generateLiteral rune x = .ok (out, x1) := by
  cases hf : FindStringSubmatch rune with
  | none => exact ⟨rune, x, by simp only [generateLiteral, hf]⟩
  | some ds =>
    rw [hf] at h
    simp only [Bool.and_eq_true, Option.isSome_iff_exists] at h
    obtain ⟨⟨idx, hidx⟩, ⟨o, ho⟩⟩ := h
    cases hg : x.groups.get idx with
    | some val => exact ⟨val, x, by simp only [generateLiteral, hf, hidx, hg]⟩
    | none =>
      by_cases hlen : idx > (x.groups.len : Int)
      · exact ⟨runeString o, x, by simp only [generateLiteral, hf, hidx, hg, if_pos hlen, ho]⟩
      · exact ⟨[], x, by simp only [generateLiteral, hf, hidx, hg, if_neg hlen]⟩

/-! ## Auxiliary facts: the output matches on plain trees -/

/-- A match of a list of one tree is a match of that tree. -/
theorem MatchesSeq.single {fold : Char → Char → Prop} {r : Regexp} {s : GoString}
    (h : MatchesSeq fold [r] s) : Matches fold r s := by
  cases h with
  | cons h1 h2 =>
    cases h2
    simpa using h1

/-- When every pass appends a match of `r`, the loop of `n` passes appends `n` matches. -/
theorem repeatLoop_matches (fold : Char → Char → Prop) (r : Regexp)
    (body : GoString → State → Result)
    (hbody : ∀ b x, ∃ s x1, body b x = .ok (b ++ s, x1) ∧ Matches fold r s) :
    ∀ (n : Nat) (b : GoString) (x : State), ∃ s x1,
      repeatLoop body n b x = .ok (b ++ s, x1) ∧ MatchesTimes fold r n s := by
  intro n
  induction n with
  | zero => intro b x; exact ⟨[], x, by simp only [repeatLoop, List.append_nil], .zero⟩
  | succ n ih =>
    intro b x
    obtain ⟨s, x1, h1, hs⟩ := hbody b x
    obtain ⟨t, x2, h2, ht⟩ := ih (b ++ s) x1
    exact ⟨s ++ t, x2, by simp only [repeatLoop, h1, h2, List.append_assoc], .succ hs ht⟩

/-- When every pass appends a match of `r`, `generateFromSubexpression` with a count that is
not negative returns that many matches. -/
theorem subexpressionLoop_matches (fold : Char → Char → Prop) (r : Regexp)
    (body : GoString → State → Result)
    (hbody : ∀ b x, ∃ s x1, body b x = .ok (b ++ s, x1) ∧ Matches fold r s)
    (len : Nat) {k : Int} (hcount : 0 ≤ k) (x : State) :
    ∃ s x1, subexpressionLoop body len k x = .ok (s, x1) ∧
      MatchesTimes fold r k.toNat s := by
  obtain ⟨s, x1, h, hs⟩ := repeatLoop_matches fold r body hbody k.toNat [] x
  have hcap : ¬ ((len : Int) * k < 0) := not_lt.mpr (Int.mul_nonneg (Int.ofNat_nonneg _) hcount)
  refine ⟨s, x1, ?_, hs⟩
  unfold subexpressionLoop
  rw [if_neg hcap, h, List.nil_append]

/-- The count 1 runs the pass over the children once, on the empty buffer. -/
theorem subexpressionLoop_once (body : GoString → State → Result) (len : Nat) (x : State) :
    subexpressionLoop body len 1 x
      = (match body [] x with
        | .error e => .error e
        | .ok (b1, x1) => .ok (b1, x1)) := by
  have hcap : ¬ ((len : Int) * 1 < 0) := by omega
  have h1 : (1 : Int).toNat = 1 := rfl
  unfold subexpressionLoop
  rw [if_neg hcap, h1, repeatLoop]
  cases body [] x with
  | error e => rfl
  | ok p => cases p; rfl

/-! ## Auxiliary facts: digit strings -/

/-- An octal digit is a decimal digit, of value at most 7. -/
theorem octal_digit {c : Char} (h : '0' ≤ c ∧ c ≤ '7') : c.isDigit = true ∧ digitVal c ≤ 7 := by
  obtain ⟨h1, h2⟩ := h
  have h2n : c.toNat ≤ 55 := h2
  constructor
  · simp only [Char.isDigit, Bool.and_eq_true, decide_eq_true_eq]
    have h57 : c.toNat ≤ 57 := by omega
    exact ⟨h1, h57⟩
  · unfold digitVal
    omega

/-- Reading octal digits in base 10 gives at most the square of reading them in base 8. -/
theorem foldl_decimal_le_sq (ds : GoString) (hd : ∀ c ∈ ds, '0' ≤ c ∧ c ≤ '7') :
    ∀ a b : Nat, a ≤ b ^ 2 →
      ds.foldl (fun acc c => acc * 10 + digitVal c) a
        ≤ (ds.foldl (fun acc c => acc * 8 + digitVal c) b) ^ 2 := by
  induction ds with
  | nil => intro a b h; exact h
  | cons c ds ih =>
    intro a b h
    have hc := (octal_digit (hd c (List.mem_cons_self _ _))).2
    simp only [List.foldl_cons]
    apply ih (fun d hdm => hd d (List.mem_cons_of_mem _ hdm))
    nlinarith [Nat.zero_le (b * digitVal c), Nat.zero_le (digitVal c * digitVal c),
      Nat.zero_le (b * b)]

/-- The decimal value of a string of octal digits, against its octal value. -/
theorem numeral_decimal_le_sq (ds : GoString) (hd : ∀ c ∈ ds, '0' ≤ c ∧ c ≤ '7') :
    numeral 10 ds ≤ (numeral 8 ds) ^ 2 :=
  foldl_decimal_le_sq ds hd 0 0 (Nat.le_refl _)

/-! ## Auxiliary facts: the loops regenerate the children as a unit -/

/-- The inner loop appends to the buffer what one iteration over the children gives. -/
theorem appendSubs_eq_onePass (src : Nat → Nat) (subs : List Regexp) :
    ∀ (b : GoString) (x : State), appendSubs src subs b x
      = (match onePass src subs x with
        | .error e => .error e
        | .ok (s, x1) => .ok (b ++ s, x1)) := by
  induction subs with
  | nil => intro b x; simp only [appendSubs, onePass, List.append_nil]
  | cons r rs ih =>
    intro b x
    simp only [appendSubs, onePass]
    cases hr : generateFromRegexp src r x with
    | error e => rfl
    | ok p =>
      obtain ⟨s, x1⟩ := p
      simp only [ih]
      cases hrs : onePass src rs x1 with
      | error e => rfl
      | ok q =>
        obtain ⟨t, x2⟩ := q
        simp only [List.append_assoc]

/-- The outer loop of `n` passes appends to the buffer the children regenerated `n` times. -/
theorem repeatLoop_eq_regenerate (src : Nat → Nat) (subs : List Regexp) :
    ∀ (n : Nat) (b : GoString) (x : State), repeatLoop (appendSubs src subs) n b x
      = (match regenerate src subs n x with
        | .error e => .error e
        | .ok (s, x1) => .ok (b ++ s, x1)) := by
  intro n
  induction n with
  | zero => intro b x; simp only [repeatLoop, regenerate, List.append_nil]
  | succ n ih =>
    intro b x
    simp only [repeatLoop, regenerate, appendSubs_eq_onePass]
    cases hp : onePass src subs x with
    | error e => rfl
    | ok p =>
      obtain ⟨s, x1⟩ := p
      simp only [ih]
      cases hr : regenerate src subs n x1 with
      | error e => rfl
      | ok q =>
        obtain ⟨t, x2⟩ := q
        simp only [List.append_assoc]

/-- For a count that is not negative `generateFromSubexpression` regenerates the children as a
unit that many times. -/
theorem subexpressionLoop_eq_regenerate (src : Nat → Nat) (subs : List Regexp) (len : Nat)
    {k : Int} (hk : 0 ≤ k) (x : State) :
    subexpressionLoop (appendSubs src subs) len k x = regenerate src subs k.toNat x := by
  have hcap : ¬ ((len : Int) * k < 0) := not_lt.mpr (Int.mul_nonneg (Int.ofNat_nonneg _) hk)
  unfold subexpressionLoop
  rw [if_neg hcap, repeatLoop_eq_regenerate]
  cases regenerate src subs k.toNat x with
  | error e => rfl
  | ok q =>
    obtain ⟨t, x2⟩ := q
    simp only [List.nil_append]

/-- Regenerating the single child `a` gives as many `a`. -/
theorem regenerate_literal_a (src : Nat → Nat) (n : Nat) (x : State) :
    regenerate src [Literal "a"] n x = .ok (List.replicate n 'a', x) := by
  induction n with
  | zero => rfl
  | succ n ih =>
    have h1 : onePass src [Literal "a"] x = .ok (['a'], x) := rfl
    simp only [regenerate, h1, ih, List.replicate_succ, List.singleton_append]

/-- The call of line 148 generates the child at the index. -/
theorem generateAt_eq (src : Nat → Nat) (subs : List Regexp) :
    ∀ (i : Nat) (h : i < subs.length) (x : State),
      generateAt src subs i x = generateFromRegexp src (subs.get ⟨i, h⟩) x := by
  induction subs with
  | nil => intro i h; exact absurd h (Nat.not_lt_zero _)
  | cons r rs ih =>
    intro i h x
    cases i with
    | zero =>
      simp only [generateAt]
      rfl
    | succ i =>
      simp only [generateAt]
      exact ih i (Nat.lt_of_succ_lt_succ h) x

/-- With the constant source `k - Min` an `OpRepeat` node with `0 <= Min <= k <= Max` computes
the count `k`. -/
theorem repeat_count_const (x : State) {mn mx : Int} (k : Nat) (h0 : 0 ≤ mn)
    (h1 : mn ≤ (k : Int)) (h2 : (k : Int) ≤ mx) (h3 : mx < 2 ^ 63) :
    randInt (fun _ => ((k : Int) - mn).toNat)
        (wrap64 ((if mx = -1 then limit else mx) - mn + 1)) x
      = .ok ((k : Int) - mn, { x with drawn := x.drawn + 1 }) ∧
    wrap64 ((k : Int) - mn + mn) = (k : Int) := by
  have hcast : (((k : Int) - mn).toNat : Int) = (k : Int) - mn := Int.toNat_of_nonneg (by omega)
  have hv : ((k : Int) - mn).toNat < 2 ^ 63 := by omega
  have hmx : (if mx = -1 then limit else mx) = mx := if_neg (by omega)
  rw [hmx]
  have hsum : (k : Int) - mn + mn = (k : Int) := by omega
  refine ⟨?_, by rw [hsum]; exact wrap64_of_range (by omega) (by omega)⟩
  by_cases hbig : mx - mn + 1 = 2 ^ 63
  · have hw : wrap64 (mx - mn + 1) = -2 ^ 63 := by rw [hbig]; decide
    have h63 : Int63 (fun _ => ((k : Int) - mn).toNat) x.drawn = (k : Int) - mn := by
      unfold Int63
      rw [Nat.mod_eq_of_lt hv, hcast]
    unfold randInt
    rw [hw, if_neg (by decide), h63, Int.tmod_neg, Int.tmod_eq_of_lt (by omega) (by omega)]
  · have hw : wrap64 (mx - mn + 1) = mx - mn + 1 := wrap64_of_range (by omega) (by omega)
    have h := randInt_const ((k : Int) - mn).toNat x (n := mx - mn + 1) (by omega) hv
    rw [hw, h, hcast]

/-! ## Auxiliary facts: candidates of a class, one pass, the store -/

/-- The candidates of a class node are the characters of `printableNotControl` inside its
ranges when the flag `FoldCase` is not set, and those outside its ranges when it is. -/
theorem mem_candidates (flags : Nat) (rune : List Char) (c : Char) :
    c ∈ candidates flags rune ↔
      c ∈ printableNotControl ∧
        ((flags &&& FoldCase = 0 ∧ classHas rune c = true) ∨
          (flags &&& FoldCase ≠ 0 ∧ classHas rune c = false)) := by
  unfold candidates
  by_cases hf : flags &&& FoldCase ≠ 0
  · rw [if_pos hf, List.mem_filter]
    constructor
    · rintro ⟨h1, h2⟩
      exact ⟨h1, Or.inr ⟨hf, by simpa using h2⟩⟩
    · rintro ⟨h1, h2⟩
      rcases h2 with ⟨h0, _⟩ | ⟨_, h3⟩
      · exact absurd h0 hf
      · exact ⟨h1, by simpa using h3⟩
  · rw [if_neg hf, List.mem_filter]
    constructor
    · rintro ⟨h1, h2⟩
      exact ⟨h1, Or.inl ⟨not_not.mp hf, h2⟩⟩
    · rintro ⟨h1, h2⟩
      rcases h2 with ⟨_, h3⟩ | ⟨h0, _⟩
      · exact ⟨h1, h3⟩
      · exact absurd h0 hf

/-- Regenerating the children once is one pass over them. -/
theorem regenerate_one (src : Nat → Nat) (subs : List Regexp) (x : State) :
    regenerate src subs 1 x = onePass src subs x := by
  simp only [regenerate]
  cases onePass src subs x with
  | error e => rfl
  | ok p =>
    obtain ⟨s, x1⟩ := p
    simp only [List.append_nil]

/-- After `groups[k] = v` the lookup of `k` gives `v`. -/
theorem Groups.get_set (g : Groups) (k : Int) (v : GoString) : (g.set k v).get k = some v := by
  simp [Groups.get, Groups.set, List.lookup]

/-! ## The claims -/

/-- C1, amended: on a tree built only from the supported operators in the shape the parser
gives them, whose runes (the text of a literal, the bounds of a class) are Unicode scalar
values and not surrogates, in which no literal holds a `<gN>` fragment, every class is without
the flag `FoldCase` and has a character of `printableNotControl`, and every repetition with
`Max = -1` has `Min <= 10`, the generator returns, for every store and every source, a string
that is a full match of the tree. The condition on the runes is the type of `Regexp.Rune`. -/
theorem generate_matches (fold : Char → Char → Prop) (src : Nat → Nat) (re : Regexp) :
    plain re = true → ∀ x : State, ∃ out x1,
      generateFromRegexp src re x = .ok (out, x1) ∧ Matches fold re out := by
  refine @Regexp.rec
    (fun re => plain re = true → ∀ x : State, ∃ out x1,
      generateFromRegexp src re x = .ok (out, x1) ∧ Matches fold re out)
    (fun subs => plainAll subs = true →
      (∀ (b : GoString) (x : State), ∃ s x1,
        appendSubs src subs b x = .ok (b ++ s, x1) ∧ MatchesSeq fold subs s) ∧
      (∀ i : Nat, i < subs.length → ∀ x : State, ∃ out x1,
        generateAt src subs i x = .ok (out, x1) ∧ ∃ r, r ∈ subs ∧ Matches fold r out))
    ?_ ?_ ?_ re
  · intro op fl sub rune mn mx cap ih hs x
    have hone : ∀ r : Regexp, sub = [r] → plainAll sub = true →
        ∀ b y, ∃ s y1, appendSubs src sub b y = .ok (b ++ s, y1) ∧ Matches fold r s := by
      intro r hr hp b y
      obtain ⟨s, y1, h1, h2⟩ := (ih hp).1 b y
      subst hr
      exact ⟨s, y1, h1, h2.single⟩
    cases op
    case OpLiteral =>
      simp only [plain, Option.isNone_iff_eq_none] at hs
      exact ⟨rune, x, by simp only [generateFromRegexp, generateLiteral_verbatim rune x hs],
        .literal rfl⟩
    case OpCharClass =>
      simp only [plain, Bool.and_eq_true, decide_eq_true_eq, List.any_eq_true] at hs
      obtain ⟨⟨hfl, heven⟩, c0, hc0, hc0in⟩ := hs
      have hcand : candidates fl rune = printableNotControl.filter (fun c => classHas rune c) := by
        unfold candidates
        rw [if_neg (not_not.mpr hfl)]
      rcases generateCharClass_cases src fl rune x heven with ⟨hnil, _⟩ | ⟨c, hc, h⟩
      · rw [hcand] at hnil
        have hmem : c0 ∈ printableNotControl.filter (fun c => classHas rune c) :=
          List.mem_filter.mpr ⟨hc0, hc0in⟩
        rw [hnil] at hmem
        exact absurd hmem (List.not_mem_nil _)
      · rw [hcand] at hc
        exact ⟨[c], { x with drawn := x.drawn + 1 }, by simp only [generateFromRegexp, h],
          .charClass (List.mem_filter.mp hc).2⟩
    case OpAnyCharNotNL =>
      obtain ⟨c, hc, h⟩ := generateAnyChar_mem src printableNotNL x (by decide)
      have hall : ∀ d ∈ printableNotNL, d ≠ '\n' := by decide
      exact ⟨[c], { x with drawn := x.drawn + 1 }, by simp only [generateFromRegexp, h],
        .anyCharNotNL (hall c hc)⟩
    case OpAnyChar =>
      obtain ⟨c, _, h⟩ := generateAnyChar_mem src printable x (by decide)
      exact ⟨[c], { x with drawn := x.drawn + 1 }, by simp only [generateFromRegexp, h],
        .anyChar⟩
    case OpCapture =>
      simp only [plain, Bool.and_eq_true, decide_eq_true_eq] at hs
      obtain ⟨r, hr⟩ := List.length_eq_one.mp hs.1
      obtain ⟨s, x1, h1, h2⟩ := hone r hr hs.2 [] x
      subst hr
      exact ⟨s, { x1 with groups := x1.groups.set cap s },
        by simp only [generateFromRegexp, subexpressionLoop_once, h1, List.nil_append],
        .capture h2⟩
    case OpStar =>
      simp only [plain, Bool.and_eq_true, decide_eq_true_eq] at hs
      obtain ⟨r, hr⟩ := List.length_eq_one.mp hs.1
      obtain ⟨k, hk0, _, hk⟩ := randInt_pos src x (n := limit + 1) (by decide)
      obtain ⟨s, x1, h1, h2⟩ := subexpressionLoop_matches fold r _ (hone r hr hs.2)
        sub.length hk0 { x with drawn := x.drawn + 1 }
      subst hr
      exact ⟨s, x1, by simp only [generateFromRegexp, hk, h1], .star _ h2⟩
    case OpPlus =>
      simp only [plain, Bool.and_eq_true, decide_eq_true_eq] at hs
      obtain ⟨r, hr⟩ := List.length_eq_one.mp hs.1
      obtain ⟨k, hk0, _, hk⟩ := randInt_pos src x (n := limit) (by decide)
      obtain ⟨s, x1, h1, h2⟩ := subexpressionLoop_matches fold r _ (hone r hr hs.2)
        sub.length (k := k + 1) (by omega) { x with drawn := x.drawn + 1 }
      subst hr
      exact ⟨s, x1, by simp only [generateFromRegexp, hk, h1], .plus _ (by omega) h2⟩
    case OpQuest =>
      simp only [plain, Bool.and_eq_true, decide_eq_true_eq] at hs
      obtain ⟨r, hr⟩ := List.length_eq_one.mp hs.1
      obtain ⟨k, hk0, hk1, hk⟩ := randInt_pos src x (n := 2) (by decide)
      obtain ⟨s, x1, h1, h2⟩ := subexpressionLoop_matches fold r _ (hone r hr hs.2)
        sub.length hk0 { x with drawn := x.drawn + 1 }
      subst hr
      exact ⟨s, x1, by simp only [generateFromRegexp, hk, h1], .quest _ (by omega) h2⟩
    case OpRepeat =>
      simp only [plain, Bool.and_eq_true, Bool.or_eq_true, decide_eq_true_eq] at hs
      obtain ⟨⟨⟨hlen, hsub⟩, h0⟩, hb⟩ := hs
      obtain ⟨r, hr⟩ := List.length_eq_one.mp hlen
      obtain ⟨k, hk, hlo, hhi⟩ := repeat_count_range src x h0 hb
      obtain ⟨s, x1, h1, h2⟩ := subexpressionLoop_matches fold r _ (hone r hr hsub)
        sub.length (le_trans h0 hlo) { x with drawn := x.drawn + 1 }
      subst hr
      refine ⟨s, x1, by simp only [generateFromRegexp, hk, h1], .times _ (by omega) ?_ h2⟩
      by_cases hmx : mx = -1
      · exact Or.inl hmx
      · rw [if_neg hmx] at hhi
        exact Or.inr (by omega)
    case OpConcat =>
      simp only [plain] at hs
      obtain ⟨s, x1, h1, h2⟩ := (ih hs).1 [] x
      exact ⟨s, x1,
        by simp only [generateFromRegexp, subexpressionLoop_once, h1, List.nil_append],
        .concat h2⟩
    case OpAlternate =>
      simp only [plain, Bool.and_eq_true, Bool.not_eq_true', List.isEmpty_eq_false] at hs
      obtain ⟨hne, hsub⟩ := hs
      have hpos : 0 < sub.length := List.length_pos.mpr hne
      obtain ⟨k, hk0, hk1, hk⟩ := randInt_pos src x (n := (sub.length : Int)) (by omega)
      obtain ⟨out, x1, h, r, hr, hm⟩ :=
        (ih hsub).2 k.toNat (by omega) { x with drawn := x.drawn + 1 }
      exact ⟨out, x1, by simp only [generateFromRegexp, hk, if_neg (not_lt.mpr hk0), h],
        .alternate hr hm⟩
    all_goals simp only [plain] at hs
    all_goals exact absurd hs (by decide)
  · intro _
    exact ⟨fun b x => ⟨[], x, by simp only [appendSubs, List.append_nil], .nil⟩,
      fun i hi => absurd hi (Nat.not_lt_zero _)⟩
  · intro head tail ih1 ih2 hs
    simp only [plainAll, Bool.and_eq_true] at hs
    constructor
    · intro b x
      obtain ⟨s, x1, h1, hm1⟩ := ih1 hs.1 x
      obtain ⟨t, x2, h2, hm2⟩ := (ih2 hs.2).1 (b ++ s) x1
      exact ⟨s ++ t, x2, by simp only [appendSubs, h1, h2, List.append_assoc], .cons hm1 hm2⟩
    · intro i hi x
      cases i with
      | zero =>
        obtain ⟨o, x1, h, hm⟩ := ih1 hs.1 x
        exact ⟨o, x1, by simp only [generateAt, h], head, List.mem_cons_self _ _, hm⟩
      | succ i =>
        obtain ⟨o, x1, h, r, hr, hm⟩ := (ih2 hs.2).2 i (by simpa using hi) x
        exact ⟨o, x1, by simp only [generateAt, h], r, List.mem_cons_of_mem _ hr, hm⟩

/-- C1 at a tree that uses each of the supported operators, from the state of a fresh
generator. -/
theorem generate_matches_witness :
    plain (Concat [Capture 1 [Alternate [Literal "ab", CharClass ['0', '9']]],
        Star [AnyCharNotNL], Repeat 2 4 [Literal "z"], Quest [AnyChar], Plus [Literal "q"],
        Repeat 3 (-1) [Literal "r"]]) = true ∧
    ∃ out x1, generateFromRegexp (fun k => 5 * k + 1)
        (Concat [Capture 1 [Alternate [Literal "ab", CharClass ['0', '9']]],
          Star [AnyCharNotNL], Repeat 2 4 [Literal "z"], Quest [AnyChar], Plus [Literal "q"],
          Repeat 3 (-1) [Literal "r"]]) fresh = .ok (out, x1) ∧
      Matches (fun a b => a = b)
        (Concat [Capture 1 [Alternate [Literal "ab", CharClass ['0', '9']]],
          Star [AnyCharNotNL], Repeat 2 4 [Literal "z"], Quest [AnyChar], Plus [Literal "q"],
          Repeat 3 (-1) [Literal "r"]]) out :=
  ⟨by decide, generate_matches _ _ _ (by decide) _⟩

/-- C1 as stated fails: on the empty store the literal `<g1>` generates the character U+0001,
which is no match of that literal, whatever the case folding. -/
theorem generate_matches_counterexample :
    (∀ src : Nat → Nat,
      generateFromRegexp src (Literal "<g1>") fresh = .ok ([Char.ofNat 1], fresh)) ∧
    ∀ fold : Char → Char → Prop, ¬ Matches fold (Literal "<g1>") [Char.ofNat 1] := by
  refine ⟨fun _ => rfl, ?_⟩
  intro fold h
  cases h with
  | literal h => exact absurd h (by decide)
  | literalFold hfl _ => exact absurd hfl (by decide)

/-- C2, amended: on a tree of the shape the parser gives (an alternation has a child, class
ranges come in pairs, `0 <= Min`, and `Min <= Max` when `Max` is not `-1`) in which every
`<gN>` fragment of a literal has digits that `strconv.Atoi` and `strconv.ParseInt(_, 8, 32)`
accept and every repetition with `Max = -1` has `Min <= 10`, the generator returns a string,
for every store and every source. -/
theorem generate_never_fails (src : Nat → Nat) (re : Regexp) :
    safe re = true → ∀ x : State, ∃ out x1, generateFromRegexp src re x = .ok (out, x1) := by
  refine @Regexp.rec
    (fun re => safe re = true →
      ∀ x : State, ∃ out x1, generateFromRegexp src re x = .ok (out, x1))
    (fun subs => safeAll subs = true →
      (∀ (b : GoString) (x : State), ∃ b1 x1, appendSubs src subs b x = .ok (b1, x1)) ∧
      (∀ i : Nat, i < subs.length →
        ∀ x : State, ∃ out x1, generateAt src subs i x = .ok (out, x1)))
    ?_ ?_ ?_ re
  · intro op fl sub rune mn mx cap ih hs x
    cases op
    case OpLiteral =>
      simp only [safe] at hs
      simp only [generateFromRegexp]
      exact generateLiteral_ok rune x hs
    case OpCharClass =>
      simp only [safe, decide_eq_true_eq] at hs
      simp only [generateFromRegexp]
      rcases generateCharClass_cases src fl rune x hs with ⟨_, h⟩ | ⟨c, _, h⟩
      · exact ⟨_, _, h⟩
      · exact ⟨_, _, h⟩
    case OpAnyCharNotNL =>
      obtain ⟨c, _, h⟩ := generateAnyChar_mem src printableNotNL x (by decide)
      exact ⟨[c], { x with drawn := x.drawn + 1 }, by simp only [generateFromRegexp, h]⟩
    case OpAnyChar =>
      obtain ⟨c, _, h⟩ := generateAnyChar_mem src printable x (by decide)
      exact ⟨[c], { x with drawn := x.drawn + 1 }, by simp only [generateFromRegexp, h]⟩
    case OpCapture =>
      simp only [safe] at hs
      obtain ⟨out, x1, h⟩ :=
        subexpressionLoop_ok _ (ih hs).1 sub.length (k := 1) (by decide) x
      exact ⟨out, { x1 with groups := x1.groups.set cap out },
        by simp only [generateFromRegexp, h]⟩
    case OpStar =>
      simp only [safe] at hs
      obtain ⟨r, hr0, _, hr⟩ := randInt_pos src x (n := limit + 1) (by decide)
      obtain ⟨out, x1, h⟩ := subexpressionLoop_ok _ (ih hs).1 sub.length hr0
        { x with drawn := x.drawn + 1 }
      exact ⟨out, x1, by simp only [generateFromRegexp, hr, h]⟩
    case OpPlus =>
      simp only [safe] at hs
      obtain ⟨r, hr0, _, hr⟩ := randInt_pos src x (n := limit) (by decide)
      obtain ⟨out, x1, h⟩ := subexpressionLoop_ok _ (ih hs).1 sub.length
        (k := r + 1) (by omega) { x with drawn := x.drawn + 1 }
      exact ⟨out, x1, by simp only [generateFromRegexp, hr, h]⟩
    case OpQuest =>
      simp only [safe] at hs
      obtain ⟨r, hr0, _, hr⟩ := randInt_pos src x (n := 2) (by decide)
      obtain ⟨out, x1, h⟩ := subexpressionLoop_ok _ (ih hs).1 sub.length hr0
        { x with drawn := x.drawn + 1 }
      exact ⟨out, x1, by simp only [generateFromRegexp, hr, h]⟩
    case OpRepeat =>
      simp only [safe, Bool.and_eq_true, Bool.or_eq_true, decide_eq_true_eq] at hs
      obtain ⟨⟨hsub, h0⟩, hb⟩ := hs
      obtain ⟨r, hr, hlo, _⟩ := repeat_count_range src x h0 hb
      obtain ⟨out, x1, h⟩ := subexpressionLoop_ok _ (ih hsub).1 sub.length
        (le_trans h0 hlo) { x with drawn := x.drawn + 1 }
      exact ⟨out, x1, by simp only [generateFromRegexp, hr, h]⟩
    case OpConcat =>
      simp only [safe] at hs
      obtain ⟨out, x1, h⟩ :=
        subexpressionLoop_ok _ (ih hs).1 sub.length (k := 1) (by decide) x
      exact ⟨out, x1, by simp only [generateFromRegexp, h]⟩
    case OpAlternate =>
      simp only [safe, Bool.and_eq_true, Bool.not_eq_true', List.isEmpty_eq_false] at hs
      obtain ⟨hne, hsub⟩ := hs
      have hpos : 0 < sub.length := List.length_pos.mpr hne
      obtain ⟨r, hr0, hr1, hr⟩ := randInt_pos src x (n := (sub.length : Int)) (by omega)
      obtain ⟨out, x1, h⟩ := (ih hsub).2 r.toNat (by omega) { x with drawn := x.drawn + 1 }
      exact ⟨out, x1, by simp only [generateFromRegexp, hr, if_neg (not_lt.mpr hr0), h]⟩
    all_goals exact ⟨[], x, by simp only [generateFromRegexp]⟩
  · intro _
    exact ⟨fun b x => ⟨b, x, by simp only [appendSubs]⟩,
      fun i hi => absurd hi (Nat.not_lt_zero _)⟩
  · intro head tail ih1 ih2 hs
    simp only [safeAll, Bool.and_eq_true] at hs
    constructor
    · intro b x
      obtain ⟨o, x1, h1⟩ := ih1 hs.1 x
      obtain ⟨b2, x2, h2⟩ := (ih2 hs.2).1 (b ++ o) x1
      exact ⟨b2, x2, by simp only [appendSubs, h1, h2]⟩
    · intro i hi x
      cases i with
      | zero =>
        obtain ⟨o, x1, h⟩ := ih1 hs.1 x
        exact ⟨o, x1, by simp only [generateAt, h]⟩
      | succ i =>
        obtain ⟨o, x1, h⟩ := (ih2 hs.2).2 i (by simpa using hi) x
        exact ⟨o, x1, by simp only [generateAt, h]⟩

/-- C2 at a tree with a capture, a `<g1>` literal, a repetition without upper bound over an
alternation and an end-of-text assertion, from a store that holds group 3. -/
theorem generate_never_fails_witness :
    safe (Concat [Capture 1 [Star [CharClass ['a', 'z']]], Literal "<g1>",
        Repeat 2 (-1) [Alternate [Literal "x", AnyChar]],
        .mk .OpEndText 0 [] [] 0 0 0]) = true ∧
    ∃ out x1, generateFromRegexp (fun k => 7 * k + 3)
      (Concat [Capture 1 [Star [CharClass ['a', 'z']]], Literal "<g1>",
        Repeat 2 (-1) [Alternate [Literal "x", AnyChar]],
        .mk .OpEndText 0 [] [] 0 0 0])
      { groups := [(3, ['q'])], drawn := 0 } = .ok (out, x1) :=
  ⟨by decide, generate_never_fails _ _ (by decide) _⟩

/-- C2 as stated fails: the literal `<g8>` is a tree of a supported kind, and on the empty store
the generator panics at line 78, `8` being no octal digit. -/
theorem generate_never_fails_counterexample :
    generateFromRegexp (fun _ => 0) (Literal "<g8>") fresh = .error .octalPanic ∧
    ¬ ∃ out x1, generateFromRegexp (fun _ => 0) (Literal "<g8>") fresh = .ok (out, x1) := by
  have h : generateFromRegexp (fun _ => 0) (Literal "<g8>") fresh = .error .octalPanic := by
    decide
  refine ⟨h, ?_⟩
  rintro ⟨out, x1, h1⟩
  rw [h] at h1
  cases h1

/-- C3: for the pattern `(abc)<g1>` a fresh generator returns `abcabc`; for the pattern
`(x<g5>)<g1>`, whose first literal is no directive but holds one, it returns twice the
character U+0005 and not twice the text `x<g5>`. -/
theorem capture_then_backreference (src : Nat → Nat) :
    generateFromRegexp src (Concat [Capture 1 [Literal "abc"], Literal "<g1>"]) fresh
      = .ok ("abcabc".toList, { groups := [(1, "abc".toList)], drawn := 0 }) ∧
    generateFromRegexp src (Concat [Capture 1 [Literal "x<g5>"], Literal "<g1>"]) fresh
      = .ok ([Char.ofNat 5, Char.ofNat 5], { groups := [(1, [Char.ofNat 5])], drawn := 0 }) :=
  ⟨rfl, rfl⟩

/-- C4: the literal `x<g1>y`, which only holds a directive, is not returned unchanged: on an
empty store the generator returns the character U+0001. -/
theorem literal_with_fragment (src : Nat → Nat) :
    generateFromRegexp src (Literal "x<g1>y") fresh = .ok ([Char.ofNat 1], fresh) ∧
    generateFromRegexp src (Literal "x<g1>y") fresh ≠ .ok ("x<g1>y".toList, fresh) := by
  have h : generateFromRegexp src (Literal "x<g1>y") fresh = .ok ([Char.ofNat 1], fresh) := rfl
  refine ⟨h, ?_⟩
  rw [h]
  decide

/-- C6: for the pattern `[0-9]{3}` every output has length 3 and consists of decimal digits. -/
theorem repeat_digits_output (src : Nat → Nat) (x : State) :
    ∃ out x1, generateFromRegexp src (Repeat 3 3 [CharClass ['0', '9']]) x = .ok (out, x1) ∧
      out.length = 3 ∧ ∀ c ∈ out, c.isDigit = true := by
  obtain ⟨r, hr0, hr1, hr⟩ := randInt_pos src x (n := 1) (by decide)
  have hr3 : r = 0 := by omega
  subst hr3
  obtain ⟨c1, hc1, h1⟩ := appendSubs_digit src [] { x with drawn := x.drawn + 1 }
  obtain ⟨c2, hc2, h2⟩ := appendSubs_digit src ([] ++ [c1]) { x with drawn := x.drawn + 1 + 1 }
  obtain ⟨c3, hc3, h3⟩ :=
    appendSubs_digit src ([] ++ [c1] ++ [c2]) { x with drawn := x.drawn + 1 + 1 + 1 }
  refine ⟨[c1, c2, c3], { x with drawn := x.drawn + 1 + 1 + 1 + 1 }, ?_, rfl, ?_⟩
  · have hw1 : wrap64 ((if (3 : Int) = -1 then limit else 3) - 3 + 1) = 1 := by decide
    have hw3 : wrap64 (0 + 3) = 3 := by decide
    simp only [Repeat, generateFromRegexp, hw1, hr, hw3, subexpressionLoop]
    rw [if_neg (by decide)]
    have h3n : (3 : Int).toNat = 3 := rfl
    rw [h3n]
    simp only [repeatLoop, h1, h2, h3]
    rfl
  · intro c hc
    simp only [List.mem_cons, List.mem_singleton, List.not_mem_nil, or_false] at hc
    rcases hc with rfl | rfl | rfl <;> assumption

/-- C7: for the pattern `(a|b)c`, with the choice either an alternation of two literals or
the class `a-b`, every output is `ac` or `bc`, and each of the two is the output for some
random value. -/
theorem alternation_c_output :
    (∀ (src : Nat → Nat) (x : State), ∃ out x1,
      generateFromRegexp src
          (Concat [Capture 1 [Alternate [Literal "a", Literal "b"]], Literal "c"]) x
        = .ok (out, x1) ∧ (out = ['a', 'c'] ∨ out = ['b', 'c'])) ∧
    (∀ (src : Nat → Nat) (x : State), ∃ out x1,
      generateFromRegexp src (Concat [Capture 1 [CharClass ['a', 'b']], Literal "c"]) x
        = .ok (out, x1) ∧ (out = ['a', 'c'] ∨ out = ['b', 'c'])) ∧
    (∀ x : State,
      (∃ (src : Nat → Nat) (x1 : State), generateFromRegexp src
          (Concat [Capture 1 [Alternate [Literal "a", Literal "b"]], Literal "c"]) x
        = .ok (['a', 'c'], x1)) ∧
      (∃ (src : Nat → Nat) (x1 : State), generateFromRegexp src
          (Concat [Capture 1 [Alternate [Literal "a", Literal "b"]], Literal "c"]) x
        = .ok (['b', 'c'], x1)) ∧
      (∃ (src : Nat → Nat) (x1 : State), generateFromRegexp src
          (Concat [Capture 1 [CharClass ['a', 'b']], Literal "c"]) x = .ok (['a', 'c'], x1)) ∧
      (∃ (src : Nat → Nat) (x1 : State), generateFromRegexp src
          (Concat [Capture 1 [CharClass ['a', 'b']], Literal "c"]) x = .ok (['b', 'c'], x1))) := by
  refine ⟨?_, ?_, ?_⟩
  · intro src x
    obtain ⟨r, hr0, hr1, hr⟩ := randInt_pos src x (n := 2) (by decide)
    obtain ⟨ha, hb⟩ := alternate_ab_of_randInt src x _ r hr
    have hcase : r = 0 ∨ r = 1 := by omega
    rcases hcase with h | h
    · exact ⟨_, _, concat_capture_c src _ x _ _ (ha h), Or.inl rfl⟩
    · exact ⟨_, _, concat_capture_c src _ x _ _ (hb h), Or.inr rfl⟩
  · intro src x
    obtain ⟨r, hr0, hr1, hr⟩ := randInt_pos src x (n := 2) (by decide)
    obtain ⟨ha, hb⟩ := charClass_ab_of_randInt src x _ r hr
    have hcase : r = 0 ∨ r = 1 := by omega
    rcases hcase with h | h
    · exact ⟨_, _, concat_capture_c src _ x _ _ (ha h), Or.inl rfl⟩
    · exact ⟨_, _, concat_capture_c src _ x _ _ (hb h), Or.inr rfl⟩
  · intro x
    have h0 := randInt_const 0 x (n := 2) (by decide) (by decide)
    have h1 := randInt_const 1 x (n := 2) (by decide) (by decide)
    exact ⟨⟨fun _ => 0, _, concat_capture_c _ _ x _ _
          ((alternate_ab_of_randInt _ x _ _ h0).1 rfl)⟩,
        ⟨fun _ => 1, _, concat_capture_c _ _ x _ _
          ((alternate_ab_of_randInt _ x _ _ h1).2 rfl)⟩,
        ⟨fun _ => 0, _, concat_capture_c _ _ x _ _
          ((charClass_ab_of_randInt _ x _ _ h0).1 rfl)⟩,
        ⟨fun _ => 1, _, concat_capture_c _ _ x _ _
          ((charClass_ab_of_randInt _ x _ _ h1).2 rfl)⟩⟩

/-- C8: an `OpAnyCharNotNL` node returns exactly one character, taken from `printableNotNL`
and different from the newline; an `OpAnyChar` node returns exactly one character, and for a
suitable random value that character is the newline. -/
theorem anyChar_output :
    (∀ (src : Nat → Nat) fl sub rune mn mx cap (x : State), ∃ c x1,
      generateFromRegexp src (.mk .OpAnyCharNotNL fl sub rune mn mx cap) x = .ok ([c], x1) ∧
        c ∈ printableNotNL ∧ c ≠ '\n') ∧
    (∀ (src : Nat → Nat) fl sub rune mn mx cap (x : State), ∃ c x1,
      generateFromRegexp src (.mk .OpAnyChar fl sub rune mn mx cap) x = .ok ([c], x1)) ∧
    (∀ fl sub rune mn mx cap (x : State), ∃ (src : Nat → Nat) (x1 : State),
      generateFromRegexp src (.mk .OpAnyChar fl sub rune mn mx cap) x = .ok (['\n'], x1)) := by
  refine ⟨?_, ?_, ?_⟩
  · intro src fl sub rune mn mx cap x
    obtain ⟨c, hc, h⟩ := generateAnyChar_mem src printableNotNL x (by decide)
    refine ⟨c, { x with drawn := x.drawn + 1 }, ?_, hc, ?_⟩
    · simp only [generateFromRegexp, h]
    · have hall : ∀ d ∈ printableNotNL, d ≠ '\n' := by decide
      exact hall c hc
  · intro src fl sub rune mn mx cap x
    obtain ⟨c, _, h⟩ := generateAnyChar_mem src printable x (by decide)
    exact ⟨c, { x with drawn := x.drawn + 1 }, by simp only [generateFromRegexp, h]⟩
  · intro fl sub rune mn mx cap x
    refine ⟨fun _ => 99, { x with drawn := x.drawn + 1 }, ?_⟩
    have hr := randInt_const 99 x (n := ((printable.length : Nat) : Int)) (by decide) (by decide)
    simp only [generateFromRegexp, generateAnyChar, hr]
    rfl

/-- C9, amended: an `OpRepeat` node with `Max = -1` and `0 <= Min <= 10` returns what
`generateFromSubexpression` returns for some count `k` with `Min <= k <= 10`, after one value
was taken from the source. -/
theorem repeat_unbounded_count (src : Nat → Nat) (fl : Nat) (sub : List Regexp)
    (rune : List Char) (mn cap : Int) (x : State) (h0 : 0 ≤ mn) (h1 : mn ≤ 10) :
    ∃ k : Int, mn ≤ k ∧ k ≤ 10 ∧
      generateFromRegexp src (.mk .OpRepeat fl sub rune mn (-1) cap) x
        = generateFromSubexpression src (.mk .OpRepeat fl sub rune mn (-1) cap) k
            { x with drawn := x.drawn + 1 } := by
  have hlim : limit = 10 := rfl
  have hw : wrap64 (limit - mn + 1) = limit - mn + 1 := wrap64_of_range (by omega) (by omega)
  obtain ⟨r, hr0, hr1, hr⟩ := randInt_pos src x (n := limit - mn + 1) (by omega)
  have hw2 : wrap64 (r + mn) = r + mn := wrap64_of_range (by omega) (by omega)
  refine ⟨r + mn, by omega, by omega, ?_⟩
  simp only [generateFromRegexp, if_true, hw, hr, hw2, generateFromSubexpression, Regexp.Sub]

/-- C9 at the pattern `a{4,}`, from the state of a fresh generator. -/
theorem repeat_unbounded_count_witness :
    ∃ k : Int, 4 ≤ k ∧ k ≤ 10 ∧
      generateFromRegexp (fun _ => 0) (Repeat 4 (-1) [Literal "a"]) fresh
        = generateFromSubexpression (fun _ => 0) (Repeat 4 (-1) [Literal "a"]) k
            { fresh with drawn := fresh.drawn + 1 } :=
  repeat_unbounded_count (fun _ => 0) 0 [Literal "a"] [] 4 0 fresh (by decide) (by decide)

/-- C9 as stated fails: for the pattern `a{0,}` and the random value 10 the count is 10, the
output being ten `a`, and no count of `0, ..., 0 + 9` gives that output. -/
theorem repeat_unbounded_count_counterexample :
    generateFromRegexp (fun _ => 10) (Repeat 0 (-1) [Literal "a"]) fresh
        = generateFromSubexpression (fun _ => 10) (Repeat 0 (-1) [Literal "a"]) 10
            { fresh with drawn := 1 } ∧
    ¬ ∃ k : Int, 0 ≤ k ∧ k ≤ 0 + 9 ∧ k ≤ 10 ∧
      generateFromRegexp (fun _ => 10) (Repeat 0 (-1) [Literal "a"]) fresh
        = generateFromSubexpression (fun _ => 10) (Repeat 0 (-1) [Literal "a"]) k
            { fresh with drawn := 1 } := by
  refine ⟨by decide, ?_⟩
  rintro ⟨k, hk0, hk9, -, h⟩
  have hk : k = 0 ∨ k = 1 ∨ k = 2 ∨ k = 3 ∨ k = 4 ∨ k = 5 ∨ k = 6 ∨ k = 7 ∨ k = 8 ∨ k = 9 := by
    omega
  rcases hk with rfl | rfl | rfl | rfl | rfl | rfl | rfl | rfl | rfl | rfl <;>
    exact absurd h (by decide)

/-- C10: a literal whose text is `<g` + digits + `>`, the digits denoting the `int` value `i`
in base 10, returns the value the store holds for `i` and leaves the state as it was. -/
theorem backreference_resolves (src : Nat → Nat) (fl : Nat) (sub : List Regexp)
    (mn mx cap : Int) (ds : GoString) (x : State) (v : GoString)
    (hne : ds ≠ []) (hd : ∀ c ∈ ds, c.isDigit = true) (hint : numeral 10 ds < 2 ^ 63)
    (hv : x.groups.get (numeral 10 ds) = some v) :
    generateFromRegexp src (.mk .OpLiteral fl sub ('<' :: 'g' :: (ds ++ ['>'])) mn mx cap) x
      = .ok (v, x) := by
  have hall : ds.all Char.isDigit = true := List.all_eq_true.mpr hd
  have hat : Atoi ds = some (numeral 10 ds : Int) := by
    unfold Atoi
    rw [if_pos ⟨hne, hall, hint⟩]
  simp only [generateFromRegexp, generateLiteral, FindStringSubmatch_directive ds hne hd, hat, hv]

/-- C10 at the literal `<g12>` with a store that holds `abc` for group 12. -/
theorem backreference_resolves_witness :
    Groups.get [(5, ['x']), (12, ['a', 'b', 'c'])] (numeral 10 ['1', '2'])
      = some ['a', 'b', 'c'] ∧
    generateFromRegexp (fun _ => 0) (Literal "<g12>")
        { groups := [(5, ['x']), (12, ['a', 'b', 'c'])], drawn := 7 }
      = .ok (['a', 'b', 'c'], { groups := [(5, ['x']), (12, ['a', 'b', 'c'])], drawn := 7 }) :=
  ⟨by decide, backreference_resolves (fun _ => 0) 0 [] 0 0 0 ['1', '2']
    { groups := [(5, ['x']), (12, ['a', 'b', 'c'])], drawn := 7 } ['a', 'b', 'c']
    (by decide) (by decide) (by decide) (by decide)⟩

/-- C11, amended: a literal whose text is `<g` + octal digits + `>`, the digits denoting `i` in
base 10 and a valid Unicode codepoint `n` in base 8, returns the one character of codepoint `n`
when the store has no entry for `i` and `i` exceeds the number of entries of the store; the
state is left as it was. -/
theorem octal_fallback (src : Nat → Nat) (fl : Nat) (sub : List Regexp) (mn mx cap : Int)
    (ds : GoString) (x : State) (hne : ds ≠ []) (hd : ∀ c ∈ ds, '0' ≤ c ∧ c ≤ '7')
    (hnone : x.groups.get (numeral 10 ds) = none)
    (hgt : ((numeral 10 ds : Nat) : Int) > (x.groups.len : Int))
    (hvalid : (numeral 8 ds).isValidChar) :
    generateFromRegexp src (.mk .OpLiteral fl sub ('<' :: 'g' :: (ds ++ ['>'])) mn mx cap) x
      = .ok ([Char.ofNat (numeral 8 ds)], x) := by
  have hdig : ∀ c ∈ ds, c.isDigit = true := fun c hc => (octal_digit (hd c hc)).1
  have h31 : numeral 8 ds < 2 ^ 31 := by
    rcases hvalid with h | ⟨_, h⟩ <;> omega
  have hsq := numeral_decimal_le_sq ds hd
  have h63 : numeral 10 ds < 2 ^ 63 := by
    have h62 : (numeral 8 ds) ^ 2 < 2 ^ 62 := by nlinarith
    omega
  have hat : Atoi ds = some (numeral 10 ds : Int) := by
    unfold Atoi
    rw [if_pos ⟨hne, List.all_eq_true.mpr hdig, h63⟩]
  have hoct : ParseIntOctal32 ds = some (numeral 8 ds : Int) := by
    unfold ParseIntOctal32
    rw [if_pos ⟨hne, List.all_eq_true.mpr (fun c hc => decide_eq_true (hd c hc)), h31⟩]
  have hrune : runeString (numeral 8 ds : Int) = [Char.ofNat (numeral 8 ds)] := by
    unfold runeString
    rw [if_pos ⟨Int.ofNat_nonneg _, by simpa using hvalid⟩]
    simp
  simp only [generateFromRegexp, generateLiteral, FindStringSubmatch_directive ds hne hdig, hat,
    hnone, if_pos hgt, hoct, hrune]

/-- C11 at the literal `<g101>` on the empty store: the output is `A`. -/
theorem octal_fallback_witness :
    Groups.get [] (numeral 10 ['1', '0', '1']) = none ∧
    generateFromRegexp (fun _ => 0) (Literal "<g101>") fresh = .ok (['A'], fresh) :=
  ⟨by decide, octal_fallback (fun _ => 0) 0 [] 0 0 0 ['1', '0', '1'] fresh
    (by decide) (by decide) (by decide) (by decide) (by decide)⟩

/-- C11 as stated fails for octal digits that denote no codepoint: `<g154000>` (the surrogate
U+D800) gives the character U+FFFD, and `<g77777777777>`, above the largest `int32`, panics at
line 78; in neither case is the output the character whose codepoint is the octal value. -/
theorem octal_fallback_counterexample :
    generateFromRegexp (fun _ => 0) (Literal "<g154000>") fresh
      = .ok ([Char.ofNat 0xFFFD], fresh) ∧
    (¬ ∃ c : Char, c.toNat = numeral 8 "154000".toList ∧
      generateFromRegexp (fun _ => 0) (Literal "<g154000>") fresh = .ok ([c], fresh)) ∧
    generateFromRegexp (fun _ => 0) (Literal "<g77777777777>") fresh = .error .octalPanic ∧
    (¬ ∃ c : Char, c.toNat = numeral 8 "77777777777".toList ∧
      generateFromRegexp (fun _ => 0) (Literal "<g77777777777>") fresh = .ok ([c], fresh)) := by
  have h1 : generateFromRegexp (fun _ => 0) (Literal "<g154000>") fresh
      = .ok ([Char.ofNat 0xFFFD], fresh) := by decide
  have h2 : generateFromRegexp (fun _ => 0) (Literal "<g77777777777>") fresh
      = .error .octalPanic := by decide
  refine ⟨h1, ?_, h2, ?_⟩
  · rintro ⟨c, hc, h⟩
    rw [h1] at h
    have hcc : c = Char.ofNat 0xFFFD := by
      injection h with h
      injection h with h _
      injection h with h _
      exact h.symm
    rw [hcc] at hc
    exact absurd hc (by decide)
  · rintro ⟨c, _, h⟩
    rw [h2] at h
    cases h

/-- C12: a literal whose text is `<g` + digits + `>`, the digits denoting the `int` value `i` in
base 10, returns the empty string and leaves the state as it was when the store has no entry
for `i` and `i` does not exceed the number of entries of the store. -/
theorem unresolved_backreference_empty (src : Nat → Nat) (fl : Nat) (sub : List Regexp)
    (mn mx cap : Int) (ds : GoString) (x : State)
    (hne : ds ≠ []) (hd : ∀ c ∈ ds, c.isDigit = true) (hint : numeral 10 ds < 2 ^ 63)
    (hnone : x.groups.get (numeral 10 ds) = none)
    (hle : ¬ ((numeral 10 ds : Nat) : Int) > (x.groups.len : Int)) :
    generateFromRegexp src (.mk .OpLiteral fl sub ('<' :: 'g' :: (ds ++ ['>'])) mn mx cap) x
      = .ok ([], x) := by
  have hat : Atoi ds = some (numeral 10 ds : Int) := by
    unfold Atoi
    rw [if_pos ⟨hne, List.all_eq_true.mpr hd, hint⟩]
  simp only [generateFromRegexp, generateLiteral, FindStringSubmatch_directive ds hne hd, hat,
    hnone, if_neg hle]

/-- C12 at `<g0>` on the empty store and at `<g1>` on a store that holds group 2 only. -/
theorem unresolved_backreference_empty_witness :
    generateFromRegexp (fun _ => 0) (Literal "<g0>") fresh = .ok ([], fresh) ∧
    generateFromRegexp (fun _ => 0) (Literal "<g1>") { groups := [(2, ['z'])], drawn := 0 }
      = .ok ([], { groups := [(2, ['z'])], drawn := 0 }) :=
  ⟨unresolved_backreference_empty (fun _ => 0) 0 [] 0 0 0 ['0'] fresh
      (by decide) (by decide) (by decide) (by decide) (by decide),
    unresolved_backreference_empty (fun _ => 0) 0 [] 0 0 0 ['1']
      { groups := [(2, ['z'])], drawn := 0 }
      (by decide) (by decide) (by decide) (by decide) (by decide)⟩

/-- C13: `Generate` hands the store that the walk leaves to the next call; for the tree
`Concat(Literal "<g1>", Capture 1 (Literal "abc"))` the first call on a fresh generator returns
U+0001 followed by `abc` and leaves `abc` as group 1, and the second call returns `abcabc`. -/
theorem store_persists_across_calls :
    (∀ (src : Nat → Nat) (x : Xeger) (drawn : Nat),
      Generate src x drawn
        = (match generateFromRegexp src x.re { groups := x.groups, drawn := drawn } with
          | .error e => .error e
          | .ok (s, st) => .ok (s, { re := x.re, groups := st.groups }, st.drawn))) ∧
    (∀ src : Nat → Nat,
      Generate src (NewXeger (Concat [Literal "<g1>", Capture 1 [Literal "abc"]])) 0
        = .ok ([Char.ofNat 1, 'a', 'b', 'c'],
            { re := Concat [Literal "<g1>", Capture 1 [Literal "abc"]],
              groups := [(1, ['a', 'b', 'c'])] }, 0) ∧
      Generate src
          { re := Concat [Literal "<g1>", Capture 1 [Literal "abc"]],
            groups := [(1, ['a', 'b', 'c'])] } 0
        = .ok (['a', 'b', 'c', 'a', 'b', 'c'],
            { re := Concat [Literal "<g1>", Capture 1 [Literal "abc"]],
              groups := [(1, ['a', 'b', 'c']), (1, ['a', 'b', 'c'])] }, 0)) := by
  refine ⟨fun _ _ _ => rfl, fun _ => ⟨rfl, rfl⟩⟩

/-- C14, amended: the cap of 10 replaces an absent upper bound only. An `OpRepeat` node with
`0 <= Min` regenerates its children as a unit `k` times, with `k <= 10` when `Max = -1` and
`Min <= 10`, and with `k <= Max` when `Min <= Max`. -/
theorem repeat_cap (src : Nat → Nat) (fl : Nat) (sub : List Regexp) (rune : List Char)
    (mn mx cap : Int) (x : State) (h0 : 0 ≤ mn)
    (h : (mx = -1 ∧ mn ≤ limit) ∨ (mn ≤ mx ∧ mx < 2 ^ 63)) :
    ∃ k : Nat, (k : Int) ≤ (if mx = -1 then 10 else mx) ∧
      generateFromRegexp src (.mk .OpRepeat fl sub rune mn mx cap) x
        = regenerate src sub k { x with drawn := x.drawn + 1 } := by
  obtain ⟨r, hr, hlo, hhi⟩ := repeat_count_range src x h0 h
  have hnn : 0 ≤ wrap64 (r + mn) := le_trans h0 hlo
  refine ⟨(wrap64 (r + mn)).toNat, ?_, ?_⟩
  · rw [Int.toNat_of_nonneg hnn]
    exact hhi
  · simp only [generateFromRegexp, hr, subexpressionLoop_eq_regenerate src sub _ hnn]

/-- C14 at `a{3,}`, where the bound is 10, and at `a{500}`, where it is 500, from the state of
a fresh generator. -/
theorem repeat_cap_witness :
    (if (-1 : Int) = -1 then (10 : Int) else -1) = 10 ∧
    (if (500 : Int) = -1 then (10 : Int) else 500) = 500 ∧
    (∃ k : Nat, (k : Int) ≤ (if (-1 : Int) = -1 then 10 else -1) ∧
      generateFromRegexp (fun _ => 9) (Repeat 3 (-1) [Literal "a"]) fresh
        = regenerate (fun _ => 9) [Literal "a"] k { fresh with drawn := fresh.drawn + 1 }) ∧
    (∃ k : Nat, (k : Int) ≤ (if (500 : Int) = -1 then 10 else 500) ∧
      generateFromRegexp (fun _ => 9) (Repeat 500 500 [Literal "a"]) fresh
        = regenerate (fun _ => 9) [Literal "a"] k { fresh with drawn := fresh.drawn + 1 }) :=
  ⟨by decide, by decide,
    repeat_cap (fun _ => 9) 0 [Literal "a"] [] 3 (-1) 0 fresh (by decide) (by decide),
    repeat_cap (fun _ => 9) 0 [Literal "a"] [] 500 500 0 fresh (by decide) (by decide)⟩

/-- C14 as stated fails: for `a{500}` (`Min = Max = 500`) the children are regenerated 500
times, the output being 500 times `a`, and no number of times up to 10 gives that output. -/
theorem repeat_cap_counterexample :
    generateFromRegexp (fun _ => 0) (Repeat 500 500 [Literal "a"]) fresh
        = regenerate (fun _ => 0) [Literal "a"] 500 { fresh with drawn := 1 } ∧
    ¬ ∃ k : Nat, k ≤ 10 ∧
      generateFromRegexp (fun _ => 0) (Repeat 500 500 [Literal "a"]) fresh
        = regenerate (fun _ => 0) [Literal "a"] k { fresh with drawn := 1 } := by
  have hr := randInt_const 0 fresh (n := 1) (by decide) (by decide)
  have hw1 : wrap64 ((if (500 : Int) = -1 then limit else 500) - 500 + 1) = 1 := by decide
  have hw2 : wrap64 (((0 : Nat) : Int) + 500) = 500 := by decide
  have h500 : (500 : Int).toNat = 500 := rfl
  have hgen : generateFromRegexp (fun _ => 0) (Repeat 500 500 [Literal "a"]) fresh
      = regenerate (fun _ => 0) [Literal "a"] 500 { fresh with drawn := 1 } := by
    simp only [Repeat, generateFromRegexp, hw1, hr, hw2,
      subexpressionLoop_eq_regenerate _ _ _ (by decide : (0 : Int) ≤ 500), h500]
    rfl
  refine ⟨hgen, ?_⟩
  rintro ⟨k, hk, h⟩
  rw [hgen, regenerate_literal_a, regenerate_literal_a] at h
  have hlist : List.replicate 500 'a' = List.replicate k 'a' :=
    congrArg Prod.fst (Except.ok.inj h)
  have hlen := congrArg List.length hlist
  simp only [List.length_replicate] at hlen
  omega

/-- C15: a node whose operator is a zero-width assertion (begin or end of line, begin or end of
text, word boundary or its negation), `OpNoMatch` or `OpEmptyMatch` returns the empty string and
leaves the state, and with it the store, as it was. -/
theorem unsupported_empty (src : Nat → Nat) (fl : Nat) (sub : List Regexp) (rune : List Char)
    (mn mx cap : Int) (x : State) :
    generateFromRegexp src (.mk .OpBeginLine fl sub rune mn mx cap) x = .ok ([], x) ∧
    generateFromRegexp src (.mk .OpEndLine fl sub rune mn mx cap) x = .ok ([], x) ∧
    generateFromRegexp src (.mk .OpBeginText fl sub rune mn mx cap) x = .ok ([], x) ∧
    generateFromRegexp src (.mk .OpEndText fl sub rune mn mx cap) x = .ok ([], x) ∧
    generateFromRegexp src (.mk .OpWordBoundary fl sub rune mn mx cap) x = .ok ([], x) ∧
    generateFromRegexp src (.mk .OpNoWordBoundary fl sub rune mn mx cap) x = .ok ([], x) ∧
    generateFromRegexp src (.mk .OpNoMatch fl sub rune mn mx cap) x = .ok ([], x) ∧
    generateFromRegexp src (.mk .OpEmptyMatch fl sub rune mn mx cap) x = .ok ([], x) := by
  refine ⟨?_, ?_, ?_, ?_, ?_, ?_, ?_, ?_⟩ <;> simp only [generateFromRegexp]

/-- C16: an `OpRepeat` node with `0 <= Min <= Max` regenerates its children as a unit `k` times
for some `k` with `Min <= k <= Max`, after one value was taken from the source; and every such
`k` is the number of times for some source. -/
theorem repeat_bounded (fl : Nat) (sub : List Regexp) (rune : List Char) (mn mx cap : Int)
    (h0 : 0 ≤ mn) (h1 : mn ≤ mx) (h2 : mx < 2 ^ 63) :
    (∀ (src : Nat → Nat) (x : State), ∃ k : Nat, mn ≤ (k : Int) ∧ (k : Int) ≤ mx ∧
      generateFromRegexp src (.mk .OpRepeat fl sub rune mn mx cap) x
        = regenerate src sub k { x with drawn := x.drawn + 1 }) ∧
    (∀ k : Nat, mn ≤ (k : Int) → (k : Int) ≤ mx → ∀ x : State, ∃ src : Nat → Nat,
      generateFromRegexp src (.mk .OpRepeat fl sub rune mn mx cap) x
        = regenerate src sub k { x with drawn := x.drawn + 1 }) := by
  have hmx : (if mx = -1 then limit else mx) = mx := if_neg (by omega)
  constructor
  · intro src x
    obtain ⟨r, hr, hlo, hhi⟩ := repeat_count_range src x h0 (Or.inr ⟨h1, h2⟩)
    have hnn : 0 ≤ wrap64 (r + mn) := le_trans h0 hlo
    rw [hmx] at hhi
    refine ⟨(wrap64 (r + mn)).toNat, ?_, ?_, ?_⟩
    · rw [Int.toNat_of_nonneg hnn]; exact hlo
    · rw [Int.toNat_of_nonneg hnn]; exact hhi
    · simp only [generateFromRegexp, hr, subexpressionLoop_eq_regenerate src sub _ hnn]
  · intro k hk1 hk2 x
    obtain ⟨hr, hw⟩ := repeat_count_const x k h0 hk1 hk2 h2
    refine ⟨fun _ => ((k : Int) - mn).toNat, ?_⟩
    simp only [generateFromRegexp, hr, hw,
      subexpressionLoop_eq_regenerate _ sub _ (Int.ofNat_nonneg k), Int.toNat_ofNat]

/-- C16 for `Min = 2` and `Max = 4` over the child `a`: the number of times is 2, 3 or 4, and
each of the three is reached. -/
theorem repeat_bounded_witness :
    (∀ (src : Nat → Nat) (x : State), ∃ k : Nat, (2 : Int) ≤ (k : Int) ∧ (k : Int) ≤ 4 ∧
      generateFromRegexp src (.mk .OpRepeat 0 [Literal "a"] [] 2 4 0) x
        = regenerate src [Literal "a"] k { x with drawn := x.drawn + 1 }) ∧
    (∀ k : Nat, (2 : Int) ≤ (k : Int) → (k : Int) ≤ 4 → ∀ x : State, ∃ src : Nat → Nat,
      generateFromRegexp src (.mk .OpRepeat 0 [Literal "a"] [] 2 4 0) x
        = regenerate src [Literal "a"] k { x with drawn := x.drawn + 1 }) :=
  repeat_bounded 0 [Literal "a"] [] 2 4 0 (by decide) (by decide) (by decide)

/-- C17: a class node whose ranges come in pairs returns the empty string or one character of
`printableNotControl` (digits, ASCII letters, punctuation and space, newline; none of the
characters of `control`); that character is inside the ranges when the flag `FoldCase` is not
set and outside them when it is; and the empty string is returned exactly when no character of
`printableNotControl` qualifies in that sense. -/
theorem charClass_output (src : Nat → Nat) (fl : Nat) (sub : List Regexp) (rune : List Char)
    (mn mx cap : Int) (x : State) (hpairs : rune.length % 2 = 0) :
    ∃ out x1, generateFromRegexp src (.mk .OpCharClass fl sub rune mn mx cap) x = .ok (out, x1) ∧
      (out = [] ∨ ∃ c, out = [c] ∧ c ∈ printableNotControl ∧ c ∉ control ∧
        ((fl &&& FoldCase = 0 ∧ classHas rune c = true) ∨
          (fl &&& FoldCase ≠ 0 ∧ classHas rune c = false))) ∧
      (out = [] ↔ ¬ ∃ c, c ∈ printableNotControl ∧
        ((fl &&& FoldCase = 0 ∧ classHas rune c = true) ∨
          (fl &&& FoldCase ≠ 0 ∧ classHas rune c = false))) := by
  have hctl : ∀ c ∈ printableNotControl, c ∉ control := by decide
  rcases generateCharClass_cases src fl rune x hpairs with ⟨hnil, h⟩ | ⟨c, hc, h⟩
  · refine ⟨[], x, by simp only [generateFromRegexp, h], Or.inl rfl, ?_⟩
    constructor
    · rintro - ⟨c, hc⟩
      have hmem := (mem_candidates fl rune c).mpr hc
      rw [hnil] at hmem
      exact absurd hmem (List.not_mem_nil _)
    · intro _
      rfl
  · have hq := (mem_candidates fl rune c).mp hc
    refine ⟨[c], { x with drawn := x.drawn + 1 }, by simp only [generateFromRegexp, h],
      Or.inr ⟨c, rfl, hq.1, hctl c hq.1, hq.2⟩, ?_⟩
    constructor
    · intro h0
      exact absurd h0 (List.cons_ne_nil _ _)
    · intro hno
      exact absurd ⟨c, hq⟩ hno

/-- C17 at the class `[a-c]` without the flag and at the same ranges with the flag set. -/
theorem charClass_output_witness :
    (['a', 'c'] : List Char).length % 2 = 0 ∧
    (∃ out x1, generateFromRegexp (fun _ => 4) (.mk .OpCharClass 0 [] ['a', 'c'] 0 0 0) fresh
        = .ok (out, x1) ∧
      (out = [] ∨ ∃ c, out = [c] ∧ c ∈ printableNotControl ∧ c ∉ control ∧
        ((0 &&& FoldCase = 0 ∧ classHas ['a', 'c'] c = true) ∨
          (0 &&& FoldCase ≠ 0 ∧ classHas ['a', 'c'] c = false))) ∧
      (out = [] ↔ ¬ ∃ c, c ∈ printableNotControl ∧
        ((0 &&& FoldCase = 0 ∧ classHas ['a', 'c'] c = true) ∨
          (0 &&& FoldCase ≠ 0 ∧ classHas ['a', 'c'] c = false)))) ∧
    (∃ out x1, generateFromRegexp (fun _ => 4) (.mk .OpCharClass 1 [] ['a', 'c'] 0 0 0) fresh
        = .ok (out, x1) ∧
      (out = [] ∨ ∃ c, out = [c] ∧ c ∈ printableNotControl ∧ c ∉ control ∧
        ((1 &&& FoldCase = 0 ∧ classHas ['a', 'c'] c = true) ∨
          (1 &&& FoldCase ≠ 0 ∧ classHas ['a', 'c'] c = false))) ∧
      (out = [] ↔ ¬ ∃ c, c ∈ printableNotControl ∧
        ((1 &&& FoldCase = 0 ∧ classHas ['a', 'c'] c = true) ∨
          (1 &&& FoldCase ≠ 0 ∧ classHas ['a', 'c'] c = false)))) :=
  ⟨by decide, charClass_output (fun _ => 4) 0 [] ['a', 'c'] 0 0 0 fresh (by decide),
    charClass_output (fun _ => 4) 1 [] ['a', 'c'] 0 0 0 fresh (by decide)⟩

/-- C18: an `OpAlternate` node with at least one child returns, output and state, what
generating one of its children returns from the same store, after one value was taken from
the source. -/
theorem alternate_one_child (src : Nat → Nat) (fl : Nat) (sub : List Regexp) (rune : List Char)
    (mn mx cap : Int) (x : State) (hne : sub ≠ []) :
    ∃ (i : Nat) (h : i < sub.length),
      generateFromRegexp src (.mk .OpAlternate fl sub rune mn mx cap) x
        = generateFromRegexp src (sub.get ⟨i, h⟩) { x with drawn := x.drawn + 1 } := by
  have hpos : 0 < sub.length := List.length_pos.mpr hne
  obtain ⟨r, hr0, hr1, hr⟩ := randInt_pos src x (n := (sub.length : Int)) (by omega)
  have hlt : r.toNat < sub.length := by omega
  refine ⟨r.toNat, hlt, ?_⟩
  simp only [generateFromRegexp, hr, if_neg (not_lt.mpr hr0), generateAt_eq src sub _ hlt]

/-- C18 at the alternation of group 1 around `a` and group 2 around `b`: for the random value 0
the output is `a` and the store holds group 1 only. -/
theorem alternate_one_child_witness :
    generateFromRegexp (fun _ => 0)
        (Alternate [Capture 1 [Literal "a"], Capture 2 [Literal "b"]]) fresh
      = .ok (['a'], { groups := [(1, ['a'])], drawn := 1 }) ∧
    ∃ (i : Nat) (h : i < [Capture 1 [Literal "a"], Capture 2 [Literal "b"]].length),
      generateFromRegexp (fun _ => 0)
          (.mk .OpAlternate 0 [Capture 1 [Literal "a"], Capture 2 [Literal "b"]] [] 0 0 0) fresh
        = generateFromRegexp (fun _ => 0)
            ([Capture 1 [Literal "a"], Capture 2 [Literal "b"]].get ⟨i, h⟩)
            { fresh with drawn := fresh.drawn + 1 } :=
  ⟨by decide, alternate_one_child (fun _ => 0) 0
    [Capture 1 [Literal "a"], Capture 2 [Literal "b"]] [] 0 0 0 fresh (by simp)⟩

/-- C19: an `OpCapture` node with index `Cap` returns what one pass over its children returns,
with the store of that pass extended by the returned string at `Cap`; whenever it returns, the
lookup of `Cap` in the store it leaves gives the returned string. -/
theorem capture_stores (src : Nat → Nat) (fl : Nat) (sub : List Regexp) (rune : List Char)
    (mn mx cap : Int) (x : State) :
    generateFromRegexp src (.mk .OpCapture fl sub rune mn mx cap) x
      = (match onePass src sub x with
        | .error e => .error e
        | .ok (s, x0) => .ok (s, { x0 with groups := x0.groups.set cap s })) ∧
    ∀ out x1, generateFromRegexp src (.mk .OpCapture fl sub rune mn mx cap) x = .ok (out, x1) →
      x1.groups.get cap = some out := by
  have heq : generateFromRegexp src (.mk .OpCapture fl sub rune mn mx cap) x
      = (match onePass src sub x with
        | .error e => .error e
        | .ok (s, x0) => .ok (s, { x0 with groups := x0.groups.set cap s })) := by
    have h1 : (1 : Int).toNat = 1 := rfl
    simp only [generateFromRegexp,
      subexpressionLoop_eq_regenerate src sub _ (by decide : (0 : Int) ≤ 1), h1, regenerate_one]
  refine ⟨heq, ?_⟩
  intro out x1 h
  rw [heq] at h
  cases hp : onePass src sub x with
  | error e =>
    rw [hp] at h
    cases h
  | ok p =>
    obtain ⟨s, x0⟩ := p
    rw [hp] at h
    have hpair := Except.ok.inj h
    have hs : s = out := congrArg Prod.fst hpair
    have hx : ({ x0 with groups := x0.groups.set cap s } : State) = x1 := congrArg Prod.snd hpair
    rw [← hx, ← hs]
    exact Groups.get_set _ _ _

/-- C19 at group 1 around `a` and a nested group 1 around `b`: the output is `ab`, and that is
what the store holds for group 1 afterwards. -/
theorem capture_stores_witness :
    generateFromRegexp (fun _ => 0) (Capture 1 [Literal "a", Capture 1 [Literal "b"]]) fresh
      = .ok (['a', 'b'], { groups := [(1, ['a', 'b']), (1, ['b'])], drawn := 0 }) ∧
    Groups.get [(1, ['a', 'b']), (1, ['b'])] 1 = some ['a', 'b'] :=
  ⟨by decide,
    (capture_stores (fun _ => 0) 0 [Literal "a", Capture 1 [Literal "b"]] [] 0 0 1 fresh).2
      ['a', 'b'] { groups := [(1, ['a', 'b']), (1, ['b'])], drawn := 0 } (by decide)⟩

/-- C20: an `OpStar` node regenerates its children as a unit `k` times for some `k <= 10`, an
`OpQuest` node for `k` equal to 0 or 1, after one value was taken from the source; and each
such `k` is the number of times for some source. -/
theorem star_quest_count :
    (∀ (src : Nat → Nat) fl sub rune mn mx cap (x : State), ∃ k : Nat, k ≤ 10 ∧
      generateFromRegexp src (.mk .OpStar fl sub rune mn mx cap) x
        = regenerate src sub k { x with drawn := x.drawn + 1 }) ∧
    (∀ (k : Fin 11) fl sub rune mn mx cap (x : State), ∃ src : Nat → Nat,
      generateFromRegexp src (.mk .OpStar fl sub rune mn mx cap) x
        = regenerate src sub k.val { x with drawn := x.drawn + 1 }) ∧
    (∀ (src : Nat → Nat) fl sub rune mn mx cap (x : State), ∃ k : Nat, (k = 0 ∨ k = 1) ∧
      generateFromRegexp src (.mk .OpQuest fl sub rune mn mx cap) x
        = regenerate src sub k { x with drawn := x.drawn + 1 }) ∧
    (∀ (k : Fin 2) fl sub rune mn mx cap (x : State), ∃ src : Nat → Nat,
      generateFromRegexp src (.mk .OpQuest fl sub rune mn mx cap) x
        = regenerate src sub k.val { x with drawn := x.drawn + 1 }) := by
  have hlim : limit + 1 = 11 := rfl
  refine ⟨?_, ?_, ?_, ?_⟩
  · intro src fl sub rune mn mx cap x
    obtain ⟨r, hr0, hr1, hr⟩ := randInt_pos src x (n := limit + 1) (by decide)
    refine ⟨r.toNat, by omega, ?_⟩
    simp only [generateFromRegexp, hr, subexpressionLoop_eq_regenerate src sub _ hr0]
  · intro k fl sub rune mn mx cap x
    have hk := k.isLt
    have hr := randInt_const k.val x (n := limit + 1) (by omega) (by omega)
    refine ⟨fun _ => k.val, ?_⟩
    simp only [generateFromRegexp, hr,
      subexpressionLoop_eq_regenerate _ sub _ (Int.ofNat_nonneg k.val), Int.toNat_ofNat]
  · intro src fl sub rune mn mx cap x
    obtain ⟨r, hr0, hr1, hr⟩ := randInt_pos src x (n := 2) (by decide)
    refine ⟨r.toNat, by omega, ?_⟩
    simp only [generateFromRegexp, hr, subexpressionLoop_eq_regenerate src sub _ hr0]
  · intro k fl sub rune mn mx cap x
    have hk := k.isLt
    have hr := randInt_const k.val x (n := 2) (by omega) (by omega)
    refine ⟨fun _ => k.val, ?_⟩
    simp only [generateFromRegexp, hr,
      subexpressionLoop_eq_regenerate _ sub _ (Int.ofNat_nonneg k.val), Int.toNat_ofNat]

end GoXeger
